import Mathlib

/-!
Verification of the core pipeline of `app.py` (header-stamping batch script).

The Python source is shallowly embedded:
  * Python strings are `String` / `List Char` (sequences of unicode code points);
  * pandas / openpyxl cell values are `Option String`, where `none` stands for
    an absent value (pandas `NaN`, openpyxl `None`) and `some s` stands for a
    value whose Python `str()` coercion is `s`;
  * the pandas DataFrame of the roster is a list of rows (lists of cells);
  * an openpyxl worksheet is a list of rows plus a list of merged regions;
  * Python dicts keyed by strings are association lists with in-place
    overwrite on key collision (Python dicts keep insertion order and keep
    the original position when a key is re-assigned);
  * `difflib.get_close_matches` / `SequenceMatcher` (stdlib, called at
    app.py line 117 with `n=1, cutoff=0.3`) is embedded in full below,
    including the `autojunk` popularity heuristic.

All definitions are executable.
-/

set_option autoImplicit false

namespace AtasApp

/-! ### Python character primitives (ASCII range)

After the `encode("ASCII","ignore")` step every character fed to
`str.isalnum` / `str.isspace` / `str.lower` / `str.strip` in `normalizar`
is ASCII, so the ASCII semantics of those predicates is all we need. -/

/-- Python `str.isalnum` restricted to the ASCII range: `0-9A-Za-z`. -/
def pyIsAlnum (c : Char) : Bool :=
  (48 ≤ c.toNat && c.toNat ≤ 57) || (65 ≤ c.toNat && c.toNat ≤ 90) ||
    (97 ≤ c.toNat && c.toNat ≤ 122)

/-- Python `str.isspace` restricted to the ASCII range:
TAB..CR (0x09-0x0d), FS..US (0x1c-0x1f) and space (0x20). -/
def pyIsSpace (c : Char) : Bool :=
  (9 ≤ c.toNat && c.toNat ≤ 13) || (28 ≤ c.toNat && c.toNat ≤ 31) ||
    c.toNat = 32

/-- Python `str.lower` on one ASCII character: map `A-Z` to `a-z`. -/
def pyLower (c : Char) : Char :=
  if 65 ≤ c.toNat ∧ c.toNat ≤ 90 then Char.ofNat (c.toNat + 32) else c

/-- Python `str.strip()` on a character list: drop leading and trailing
whitespace. -/
def pyStrip (l : List Char) : List Char :=
  List.rdropWhile pyIsSpace (l.dropWhile pyIsSpace)

/-- Python `str.strip()` on a `String`. -/
def pyStripStr (s : String) : String :=
  String.mk (pyStrip s.data)

/-! ### The composite NFKD-decompose-then-ASCII-encode step

`normalizar` runs `unicodedata.normalize("NFKD", texto)` and then
`encode("ASCII", "ignore")`: every character is decomposed and only the
ASCII part of the decomposition survives.  We embed the composite map
character by character: ASCII characters are their own NFKD normal form and
survive encoding unchanged; for non-ASCII characters the table below lists
the surviving ASCII remainder (Latin-1 supplement letters decompose into an
ASCII base letter plus combining marks, which the encode step drops;
characters with no ASCII remainder map to the empty list, which is also the
default for characters outside the table). -/

/-- ASCII remainders of NFKD decompositions for the Latin-1 supplement
letters (plus the feminine/masculine ordinal indicators).  Characters such
as `Æ`, `Ø`, `ß`, `Þ` have no decomposition and are dropped entirely by
`encode("ASCII","ignore")`, hence they are absent from this table. -/
def latinFoldTable : List (Char × List Char) :=
  [('ª', ['a']), ('º', ['o']),
   ('À', ['A']), ('Á', ['A']), ('Â', ['A']), ('Ã', ['A']), ('Ä', ['A']),
   ('Å', ['A']), ('Ç', ['C']), ('È', ['E']), ('É', ['E']), ('Ê', ['E']),
   ('Ë', ['E']), ('Ì', ['I']), ('Í', ['I']), ('Î', ['I']), ('Ï', ['I']),
   ('Ñ', ['N']), ('Ò', ['O']), ('Ó', ['O']), ('Ô', ['O']), ('Õ', ['O']),
   ('Ö', ['O']), ('Ù', ['U']), ('Ú', ['U']), ('Û', ['U']), ('Ü', ['U']),
   ('Ý', ['Y']),
   ('à', ['a']), ('á', ['a']), ('â', ['a']), ('ã', ['a']), ('ä', ['a']),
   ('å', ['a']), ('ç', ['c']), ('è', ['e']), ('é', ['e']), ('ê', ['e']),
   ('ë', ['e']), ('ì', ['i']), ('í', ['i']), ('î', ['i']), ('ï', ['i']),
   ('ñ', ['n']), ('ò', ['o']), ('ó', ['o']), ('ô', ['o']), ('õ', ['o']),
   ('ö', ['o']), ('ù', ['u']), ('ú', ['u']), ('û', ['u']), ('ü', ['u']),
   ('ý', ['y']), ('ÿ', ['y'])]

/-- The per-character composite of NFKD decomposition followed by
`encode("ASCII","ignore")`: an ASCII character survives unchanged, a
non-ASCII character leaves behind the ASCII part of its decomposition
(empty when it has none or is not covered by `latinFoldTable`). -/
def nfkdAscii (c : Char) : List Char :=
  if c.toNat < 128 then [c] else (latinFoldTable.lookup c).getD []

/-- `normalizar` (app.py lines 47-53): NFKD-decompose, drop the non-ASCII
remainder, keep only alphanumeric characters and whitespace, lower-case,
strip.  The filter runs before `.lower().strip()`, exactly as in
`"".join(c for c in ascii_txt if c.isalnum() or c.isspace()).lower().strip()`. -/
def normalizar (texto : String) : String :=
  let ascii_txt := texto.data.flatMap nfkdAscii
  let kept := ascii_txt.filter (fun c => pyIsAlnum c || pyIsSpace c)
  String.mk (pyStrip (kept.map pyLower))

/-! ### Roster extraction (`extrair_blocos_empresas`, app.py lines 55-79)

A pandas cell is `Option String`: `none` is pandas `NaN` (what
`pd.read_excel` yields for an empty cell), `some s` a value whose Python
`str()` is `s`.  `pd.isna` is true exactly on `none`.  `str()` of `NaN`
is the three letter string below.  Cell access `bloco.iloc[r, 1]` is
`getCell row 1`; out-of-range column access is modelled as `none`
(`pd.read_excel` pads a rectangular frame with `NaN`; theorems that need
it assume every row has at least 2 columns). -/

/-- A pandas cell: `none` = `NaN`. -/
abbrev Cell := Option String

/-- Python `str()` of a cell value: `str(nan)` is `"nan"`. -/
def pyStr (c : Cell) : String :=
  match c with
  | none => "nan"
  | some s => s

/-- Cell `i` of a row (absent position = `NaN`). -/
def getCell (row : List Cell) (i : Nat) : Cell :=
  row.getD i none

/-- One company record, with the five fields written by the script. -/
structure Registro where
  RAZAO_SOCIAL : String
  CNPJ : String
  ENDERECO : String
  TELEFONE : String
  EMAIL : String
deriving DecidableEq, Repr

/-- A Python dict update `d[k] = v` on an insertion-ordered association
list: an existing key keeps its position and gets the new value, a new key
is appended at the end. -/
def dictInsert (d : List (String × Registro)) (k : String) (v : Registro) :
    List (String × Registro) :=
  if d.any (fun p => p.1 = k) then
    d.map (fun p => if p.1 = k then (k, v) else p)
  else
    d ++ [(k, v)]

/-- The record built from one 6-row block `bloco` (app.py lines 71-78):
column B (index 1) of rows 0-4, coerced with `str()` and stripped; fields
whose row is absent from a short trailing block default to the empty
string via the `bloco.shape[0] > r` conditionals. -/
def registroOfBloco (bloco : List (List Cell)) : Registro :=
  { RAZAO_SOCIAL := pyStripStr (pyStr (getCell (bloco.getD 0 []) 1))
    CNPJ := if 1 < bloco.length
      then pyStripStr (pyStr (getCell (bloco.getD 1 []) 1)) else ""
    ENDERECO := if 2 < bloco.length
      then pyStripStr (pyStr (getCell (bloco.getD 2 []) 1)) else ""
    TELEFONE := if 3 < bloco.length
      then pyStripStr (pyStr (getCell (bloco.getD 3 []) 1)) else ""
    EMAIL := if 4 < bloco.length
      then pyStripStr (pyStr (getCell (bloco.getD 4 []) 1)) else "" }

/-- The loop body of `extrair_blocos_empresas`: walk the frame six rows at
a time; a block is skipped when it has fewer than 2 rows or
`pd.isna(bloco.iloc[0, 1])`; otherwise `dados[razao] = {...}`.  The `fuel`
argument only bounds the recursion (each step consumes at least one row,
so fuel `rows.length` is never exhausted; see `extrairGoF_fuel`). -/
def extrairGoF : Nat → List (List Cell) → List (String × Registro) →
    List (String × Registro)
  | _, [], dados => dados
  | 0, _, dados => dados
  | fuel + 1, rows@(_ :: _), dados =>
    let bloco := rows.take 6
    let dados' :=
      if bloco.length < 2 || (getCell (bloco.getD 0 []) 1).isNone then dados
      else dictInsert dados (pyStripStr (pyStr (getCell (bloco.getD 0 []) 1)))
        (registroOfBloco bloco)
    extrairGoF fuel (rows.drop 6) dados'

/-- `extrair_blocos_empresas` (app.py lines 55-79): the returned dict as an
insertion-ordered association list from razão social to record. -/
def extrair_blocos_empresas (df : List (List Cell)) : List (String × Registro) :=
  extrairGoF df.length df []

/-- The consecutive 6-row groups of the frame, in order (spec-side view of
the `range(0, len(df), 6)` slicing; the last group may be short).  Fueled
like `extrairGoF`. -/
def chunks6F : Nat → List (List Cell) → List (List (List Cell))
  | _, [] => []
  | 0, _ => []
  | fuel + 1, rows@(_ :: _) => rows.take 6 :: chunks6F fuel (rows.drop 6)

/-- The consecutive 6-row groups of a frame. -/
def chunks6 (rows : List (List Cell)) : List (List (List Cell)) :=
  chunks6F rows.length rows

/-! ### Worksheet model, geometry detection and header stamping
(app.py lines 133-193)

An openpyxl worksheet is modelled by its cell values (row-major, 1-based
rows and columns; a cell is `Option String` with `none` for an empty cell,
`some s` for a value whose `str()` is `s`) and its list of merged regions
`(start_row, start_col, end_row, end_col)`.  `ws[6]` yields the cells of
row 6 across the used columns, where `cell.column` is the 1-based column
integer (openpyxl 3.x), i.e. position-in-row + 1.  `ws.insert_rows(1, 5)`
shifts the cell contents down five rows; openpyxl does not adjust the
merged-region list when rows are inserted, so `merges` is unchanged by the
insertion.  `ws.merge_cells` appends one region.  Cell styling
(`Alignment`) is outside the value model. -/

/-- A merged region: start row, start column, end row, end column. -/
abbrev Merge := Nat × Nat × Nat × Nat

/-- Worksheet: cell values and merged regions. -/
structure Worksheet where
  rows : List (List Cell)
  merges : List Merge
deriving DecidableEq, Repr

/-- The loop of app.py lines 140-151: `last_col = 1`, then for each cell of
row 6 whose value is neither `None` nor blank after `str()` and `strip()`,
`last_col = max(last_col, cell.column)`.  `col` is the 1-based column of
the head cell, `acc` the accumulator. -/
def lastColLoop (cells : List Cell) (col acc : Nat) : Nat :=
  match cells with
  | [] => acc
  | c :: rest =>
    lastColLoop rest (col + 1)
      (match c with
       | none => acc
       | some s => if pyStripStr s ≠ "" then max acc col else acc)

/-- Geometry detection: the `last_col` computed from row 6 of a sheet. -/
def detectLastCol (ws : Worksheet) : Nat :=
  lastColLoop (ws.rows.getD 5 []) 1 1

/-- A cell is populated when its value is present and non-blank after
coercion to text and trimming (the test of app.py line 143). -/
def populated (c : Cell) : Bool :=
  match c with
  | none => false
  | some s => pyStripStr s ≠ ""

/-- Spec-side formulation of the detector (from the claim wording): the
1-based index of the right-most populated cell of the probe row, and 1
when no populated cell exists. -/
def rightmostPopulated (cells : List Cell) : Nat :=
  (((cells.enum.filter (fun p => populated p.2)).map (fun p => p.1 + 1)).getLast?).getD 1

/-- Pad a row with empty cells up to length `n`. -/
def padRow (row : List Cell) (n : Nat) : List Cell :=
  row ++ List.replicate (n - row.length) none

/-- Write value `v` into the cell at 1-based row `r`, column `c`. -/
def setCellValue (ws : Worksheet) (r c : Nat) (v : String) : Worksheet :=
  { ws with rows :=
      ws.rows.set (r - 1) ((padRow (ws.rows.getD (r - 1) []) c).set (c - 1) (some v)) }

/-- `ws.insert_rows(1, amount=5)`: five blank rows on top, existing content
   shifted down; the merged-region list is left as is (openpyxl does not
   manage merged cells on insertion). -/
def insertRows5 (ws : Worksheet) : Worksheet :=
  { ws with rows := List.replicate 5 [] ++ ws.rows }

/-- `ws.merge_cells(start_row=r1, start_column=c1, end_row=r2, end_column=c2)`. -/
def mergeCells (ws : Worksheet) (r1 c1 r2 c2 : Nat) : Worksheet :=
  { ws with merges := ws.merges ++ [(r1, c1, r2, c2)] }

/-- The header stamping block of app.py lines 153-187: insert 5 rows, then
for each of rows 1-5 merge columns 1..`last_col` and write one labelled
line into the top-left cell. -/
def stampHeader (ws : Worksheet) (info : Registro) (last_col : Nat) : Worksheet :=
  let ws := insertRows5 ws
  let ws := mergeCells ws 1 1 1 last_col
  let ws := setCellValue ws 1 1 ("RAZÃO SOCIAL: " ++ info.RAZAO_SOCIAL)
  let ws := mergeCells ws 2 1 2 last_col
  let ws := setCellValue ws 2 1 ("CNPJ: " ++ info.CNPJ)
  let ws := mergeCells ws 3 1 3 last_col
  let ws := setCellValue ws 3 1 ("ENDEREÇO: " ++ info.ENDERECO)
  let ws := mergeCells ws 4 1 4 last_col
  let ws := setCellValue ws 4 1 ("TELEFONE: " ++ info.TELEFONE)
  let ws := mergeCells ws 5 1 5 last_col
  let ws := setCellValue ws 5 1 ("E-MAIL: " ++ info.EMAIL)
  ws

/-- The per-file sheet transformation (app.py lines 133-187): geometry
detection on the original sheet (row 6 read before any insertion), then
header stamping with the detected last column. -/
def transformSheet (ws : Worksheet) (info : Registro) : Worksheet :=
  stampHeader ws info (detectLastCol ws)

/-- The five header rows produced by stamping with a given record: each new
row holds a single cell, the labelled line, in column A. -/
def headerRows (info : Registro) : List (List Cell) :=
  [[some ("RAZÃO SOCIAL: " ++ info.RAZAO_SOCIAL)],
   [some ("CNPJ: " ++ info.CNPJ)],
   [some ("ENDEREÇO: " ++ info.ENDERECO)],
   [some ("TELEFONE: " ++ info.TELEFONE)],
   [some ("E-MAIL: " ++ info.EMAIL)]]

/-- The five header merges for a given last column. -/
def headerMerges (last_col : Nat) : List Merge :=
  [(1, 1, 1, last_col), (2, 1, 2, last_col), (3, 1, 3, last_col),
   (4, 1, 4, last_col), (5, 1, 5, last_col)]

/-! ### difflib: `SequenceMatcher` and `get_close_matches`

App.py line 117 calls `get_close_matches(nome_norm, keys, n=1, cutoff=0.3)`.
CPython's `SequenceMatcher(None, a, b)` (isjunk `None`, autojunk on) is
embedded below over `List Char`:

  * `__chain_b`: `b2j` maps each element of `b` to its ascending list of
    positions; with `len(b) >= 200`, elements occurring more than
    `len(b) // 100 + 1` times are "popular" and removed from `b2j`;
    `bjunk` is empty because `isjunk` is `None`.
  * `find_longest_match`: dynamic programming over rows `alo..ahi-1`; the
    dict `j2len` is a total function defaulting to 0 and is rebuilt each
    row; Python's `j2len.get(j-1, 0)` at `j = 0` reads index `-1`, never
    present, hence 0.  Then the best block is extended by equal non-junk
    elements on both ends; the final two junk-extension loops test
    membership in the empty `bjunk` and never run, so they are modelled as
    the identity.
  * `get_matching_blocks`: difflib collects blocks from a work queue and
    sorts them; the in-order recursion below produces that sorted list
    directly (left sub-range blocks, the found block, right sub-range
    blocks - already ascending).  The recursion is written with a fuel
    parameter for termination; the wrapper passes fuel larger than the
    recursion ever needs (see `gmbGo_fuel` below).  The final pass merges
    adjacent blocks and appends the `(la, lb, 0)` terminator.
  * `ratio` is `2*M/T` over the summed block sizes.  Python computes it in
    binary floating point and compares against the float `0.3`; it is
    modelled in `ℚ` with cutoff exactly `3/10` (for feasible inputs the
    comparisons agree: a disagreement needs `2*M/T` within one double ulp
    of `0.3`, i.e. strings of length around `10^16`).
  * `get_close_matches` guards the cutoff test by `real_quick_ratio` and
    `quick_ratio`, both documented upper bounds of `ratio`; with the
    cutoff applied to `ratio` itself, the triple test is equivalent to
    `ratio >= cutoff`, which is what is embedded.  `heapq.nlargest(1, r)`
    on `(score, candidate)` pairs is the lexicographic maximum (Python
    breaks score ties towards the greater string).
-/

/-- A match block: `(besti, bestj, size)`. -/
abbrev Triple := Nat × Nat × Nat

/-- Popularity test of `__chain_b` (autojunk): only for `len(b) >= 200`,
an element with more than `len(b) // 100 + 1` occurrences is popular. -/
def popularChar (b : List Char) (c : Char) : Bool :=
  200 ≤ b.length && b.length / 100 + 1 < b.count c

/-- `b2j`: ascending positions of `c` in `b`, with popular elements
removed. -/
def b2j (b : List Char) (c : Char) : List Nat :=
  if popularChar b c then []
  else (List.range b.length).filter (fun j => decide (b.get? j = some c))

/-- The inner loop of `find_longest_match` for one row `i`: walk the
position list `b2j[a[i]]` (ascending), skipping `j < blo` (`continue`) and
stopping at `j >= bhi` (`break`); `k = newj2len[j] = j2len.get(j-1, 0) + 1`
and the best block becomes `(i-k+1, j-k+1, k)` whenever `k > bestsize`.
`oldm` is last row's `j2len`, `newm` the one being built. -/
def flmInner (blo bhi i : Nat) :
    List Nat → (Nat → Nat) → (Nat → Nat) → Triple → ((Nat → Nat) × Triple)
  | [], _, newm, best => (newm, best)
  | j :: js, oldm, newm, best =>
    if j < blo then flmInner blo bhi i js oldm newm best
    else if bhi ≤ j then (newm, best)
    else
      let k := (if j = 0 then 0 else oldm (j - 1)) + 1
      let newm' := fun j' => if j' = j then k else newm j'
      let best' := if best.2.2 < k then (i + 1 - k, j + 1 - k, k) else best
      flmInner blo bhi i js oldm newm' best'

/-- The row loop of `find_longest_match`: for `i in range(alo, ahi)` run
`flmInner` with a fresh empty `newj2len`; the best block starts as
`(alo, blo, 0)`. -/
def flmRows (b2jOfA : Nat → List Nat) (alo ahi blo bhi : Nat) : Triple :=
  ((List.range' alo (ahi - alo)).foldl
    (fun st i => flmInner blo bhi i (b2jOfA i) st.1 (fun _ => 0) st.2)
    ((fun _ => 0), (alo, blo, 0))).2

/-- Element equality `a[i] == b[j]`, false when either index is out of
range (never the case in the guarded loops below). -/
def sameAt (a b : List Char) (i j : Nat) : Bool :=
  match a.get? i, b.get? j with
  | some x, some y => x == y
  | _, _ => false

/-- Backward extension: while `besti > alo and bestj > blo and
a[besti-1] == b[bestj-1]` move the block one step left and grow it.  The
fuel starts at `besti`; the guard `alo < bi` fails before the fuel can,
so the recursion equals the Python `while` loop. -/
def extendBack (a b : List Char) (alo blo : Nat) : Nat → Triple → Triple
  | 0, t => t
  | fuel + 1, (bi, bj, bs) =>
    if alo < bi && blo < bj && sameAt a b (bi - 1) (bj - 1) then
      extendBack a b alo blo fuel (bi - 1, bj - 1, bs + 1)
    else (bi, bj, bs)

/-- Forward extension: while `besti+bestsize < ahi and bestj+bestsize <
bhi and a[besti+bestsize] == b[bestj+bestsize]` grow the block.  The fuel
starts at `ahi - (besti + bestsize)`, which the guard exhausts first. -/
def extendFwd (a b : List Char) (ahi bhi : Nat) : Nat → Triple → Triple
  | 0, t => t
  | fuel + 1, (bi, bj, bs) =>
    if bi + bs < ahi && bj + bs < bhi && sameAt a b (bi + bs) (bj + bs) then
      extendFwd a b ahi bhi fuel (bi, bj, bs + 1)
    else (bi, bj, bs)

/-- `find_longest_match(alo, ahi, blo, bhi)` of `SequenceMatcher(None,a,b)`
with `b2jb = b2j b`: DP rows, then non-junk extension on both ends; the
junk-extension loops are the identity because `bjunk` is empty. -/
def findLongestMatch (a b : List Char) (b2jb : Char → List Nat)
    (alo ahi blo bhi : Nat) : Triple :=
  let b2jOfA := fun i =>
    match a.get? i with
    | some c => b2jb c
    | none => []
  let best := flmRows b2jOfA alo ahi blo bhi
  let best := extendBack a b alo blo best.1 best
  extendFwd a b ahi bhi (ahi - (best.1 + best.2.2)) best

/-- The recursive block collection of `get_matching_blocks` (difflib's
queue plus final sort, produced directly in sorted order): find the
longest match of the range; if empty stop, otherwise recurse on the two
flanking sub-ranges.  `fuel` only serves termination; the wrapper passes
more than the recursion can consume. -/
def gmbGo (a b : List Char) (b2jb : Char → List Nat) :
    Nat → Nat → Nat → Nat → Nat → List Triple
  | 0, _, _, _, _ => []
  | fuel + 1, alo, ahi, blo, bhi =>
    let t := findLongestMatch a b b2jb alo ahi blo bhi
    if t.2.2 = 0 then []
    else
      gmbGo a b b2jb fuel alo t.1 blo t.2.1 ++
        t :: gmbGo a b b2jb fuel (t.1 + t.2.2) ahi (t.2.1 + t.2.2) bhi

/-- The adjacent-block merging pass at the end of `get_matching_blocks`:
`(i1,j1,k1)` is the block being accumulated (initially `(0,0,0)`). -/
def mergeAdjacent : List Triple → Triple → List Triple
  | [], acc => if acc.2.2 ≠ 0 then [acc] else []
  | t :: ts, acc =>
    if acc.1 + acc.2.2 = t.1 && acc.2.1 + acc.2.2 = t.2.1 then
      mergeAdjacent ts (acc.1, acc.2.1, acc.2.2 + t.2.2)
    else (if acc.2.2 ≠ 0 then [acc] else []) ++ mergeAdjacent ts t

/-- `get_matching_blocks()` for `SequenceMatcher(None, a, b)`:
collected blocks, adjacent merging, and the `(la, lb, 0)` terminator. -/
def getMatchingBlocks (a b : List Char) : List Triple :=
  mergeAdjacent (gmbGo a b (b2j b) (a.length + b.length + 1) 0 a.length 0 b.length)
    (0, 0, 0) ++ [(a.length, b.length, 0)]

/-- The summed sizes of the matching blocks. -/
def matchesTotal (a b : List Char) : Nat :=
  ((getMatchingBlocks a b).map (fun t => t.2.2)).sum

/-- `SequenceMatcher.ratio()` as an exact fraction (numerator,
denominator): `2*M / (la+lb)`, and `1/1` when both sequences are empty
(difflib's `_calculate_ratio`).  The denominator is always positive. -/
def scorePair (a b : List Char) : Nat × Nat :=
  if a.length + b.length = 0 then (1, 1)
  else (2 * matchesTotal a b, a.length + b.length)

/-- `SequenceMatcher.ratio()` as a rational number (used in the theorem
statements; the executable comparisons below cross-multiply the exact
fractions instead).  Python computes the ratio in binary floating point;
the exact comparisons agree with the float ones for all feasible inputs
(a disagreement needs a ratio within one double ulp of the cutoff, i.e.
strings of length around `10^16`). -/
def seqScore (a b : List Char) : ℚ :=
  ((scorePair a b).1 : ℚ) / ((scorePair a b).2 : ℚ)

/-- Strict comparison of two exact ratio fractions. -/
def scoreLt (p q : Nat × Nat) : Bool :=
  decide (p.1 * q.2 < q.1 * p.2)

/-- Equality of two exact ratio fractions. -/
def scoreEq (p q : Nat × Nat) : Bool :=
  decide (p.1 * q.2 = q.1 * p.2)

/-- `heapq.nlargest(1, result)` over `(score, candidate)` pairs, as a left
fold keeping the lexicographically larger pair (score first, then the
candidate string; on a full tie the earlier element is kept, which can
only happen for identical pairs). -/
def pickBest (score : String → Nat × Nat) :
    Option String → List String → Option String
  | acc, [] => acc
  | none, x :: xs => pickBest score (some x) xs
  | some bst, x :: xs =>
    if scoreLt (score bst) (score x) ||
        (scoreEq (score bst) (score x) && decide (bst < x)) then
      pickBest score (some x) xs
    else pickBest score (some bst) xs

/-- `get_close_matches(word, keys, n=1, cutoff=0.3)`: keep the candidates
whose ratio against `word` reaches `0.3` (tested exactly as
`3*den <= 10*num`) and return the largest-scoring one (`none` when no
candidate passes).  The `real_quick_ratio` and `quick_ratio` pre-tests
are upper bounds of `ratio` and cannot reject a candidate whose ratio
reaches the cutoff, so they are elided. -/
def getCloseMatches1 (word : String) (keys : List String) : Option String :=
  let score := fun x : String => scorePair x.data word.data
  pickBest score none
    (keys.filter (fun x => 3 * (score x).2 ≤ 10 * (score x).1))

/-! ### Batch orchestrator (app.py lines 106-193)

An uploaded target file is its name plus the outcome of
`load_workbook(arquivo)`: `Except.ok ws` when the file parses,
`Except.error e` when the `try` block catches an exception with message
`e`.  The loop keeps two growing accumulators: the `match_log` list of
strings and the ZIP entries `(filename, mutated sheet)`. -/

/-- One uploaded per-company file. -/
structure UploadedFile where
  name : String
  wb : Except String Worksheet

/-- The pattern removed from file names by `replace(".xlsx", "")`. -/
def xlsxPat : List Char := ['.', 'x', 'l', 's', 'x']

/-- Python `nome.replace(".xlsx", "")`: delete every (leftmost,
non-overlapping) occurrence of the pattern, scanning left to right without
re-scanning the glued remainder.  The `fuel` argument only bounds the
recursion (each step consumes at least one character, so fuel `l.length`
is never exhausted; see `removeXlsxF_fuel`). -/
def removeXlsxF : Nat → List Char → List Char
  | _, [] => []
  | 0, l => l
  | fuel + 1, c :: rest =>
    if xlsxPat.isPrefixOf (c :: rest) then removeXlsxF fuel (rest.drop 4)
    else c :: removeXlsxF fuel rest

/-- `nome.replace(".xlsx", "")` over a character list. -/
def removeXlsx (l : List Char) : List Char := removeXlsxF l.length l

/-- `base_nome = nome_arquivo.replace(".xlsx", "").strip()` (app.py
line 113). -/
def base_nome (nome_arquivo : String) : String :=
  pyStripStr (String.mk (removeXlsx nome_arquivo.data))

/-- Stand-in record for a dict lookup that cannot fail. -/
def defaultRegistro : Registro := ⟨"", "", "", "", ""⟩

/-- `dados_empresas_norm[chave]`: total association-list lookup; in the
orchestrator `chave` always is a key of the dict, so the default is never
reached. -/
def dictGet (d : List (String × Registro)) (k : String) : Registro :=
  ((d.find? (fun p => decide (p.1 = k))).map Prod.snd).getD defaultRegistro

/-- The per-file loop of app.py lines 111-193 over the normalized roster
dict: derive the match key, fuzzy-match it against the dict keys; on no
match append the not-found line and continue; on match append the matched
line immediately, then try to open the workbook; on failure append the
open-error line and continue; on success stamp the sheet and add it to
the ZIP under its original filename. -/
def processFiles (dados_empresas_norm : List (String × Registro))
    (arquivos : List UploadedFile) : List String × List (String × Worksheet) :=
  arquivos.foldl (fun acc arquivo =>
    let nome_arquivo := arquivo.name
    let bn := base_nome nome_arquivo
    let nome_norm := normalizar bn
    match getCloseMatches1 nome_norm (dados_empresas_norm.map Prod.fst) with
    | none =>
      (acc.1 ++ ["❌ NÃO ENCONTRADO: " ++ bn ++ " (normalizado: " ++ nome_norm ++ ")"],
       acc.2)
    | some chave =>
      let info := dictGet dados_empresas_norm chave
      let log1 := acc.1 ++ ["✅ " ++ bn ++ " → " ++ info.RAZAO_SOCIAL]
      match arquivo.wb with
      | .error e =>
        (log1 ++ ["⚠️ Erro ao abrir “" ++ nome_arquivo ++ "”: " ++ e], acc.2)
      | .ok wb => (log1, acc.2 ++ [(nome_arquivo, transformSheet wb info)]))
    ([], [])

/-- `dados_empresas_norm` (app.py line 96): the dict comprehension keyed
by the normalized razão social. -/
def normKeyDict (dados_empresas : List (String × Registro)) :
    List (String × Registro) :=
  dados_empresas.foldl (fun d p => dictInsert d (normalizar p.1) p.2) []

/-- Spec-side per-file log contribution: the lines the loop body appends
for one file. -/
def logOfFile (d : List (String × Registro)) (arquivo : UploadedFile) :
    List String :=
  let bn := base_nome arquivo.name
  let nome_norm := normalizar bn
  match getCloseMatches1 nome_norm (d.map Prod.fst) with
  | none => ["❌ NÃO ENCONTRADO: " ++ bn ++ " (normalizado: " ++ nome_norm ++ ")"]
  | some chave =>
    let info := dictGet d chave
    match arquivo.wb with
    | .error e =>
      ["✅ " ++ bn ++ " → " ++ info.RAZAO_SOCIAL,
       "⚠️ Erro ao abrir “" ++ arquivo.name ++ "”: " ++ e]
    | .ok _ => ["✅ " ++ bn ++ " → " ++ info.RAZAO_SOCIAL]

/-- Spec-side per-file archive contribution: the ZIP entry the loop body
adds for one file, when it adds one. -/
def zipOfFile (d : List (String × Registro)) (arquivo : UploadedFile) :
    Option (String × Worksheet) :=
  match getCloseMatches1 (normalizar (base_nome arquivo.name)) (d.map Prod.fst) with
  | none => none
  | some chave =>
    match arquivo.wb with
    | .error _ => none
    | .ok wb => some (arquivo.name, transformSheet wb (dictGet d chave))

/-! ### Auxiliary definitions used by the proofs -/

/-- Position `p` of `b` holds a non-popular element (used in the analysis
of `find_longest_match` on identical sequences). -/
def nonPopB (b : List Char) (p : Nat) : Bool :=
  match b.get? p with
  | some c => !popularChar b c
  | none => false

/-- Length of the maximal block of consecutive non-popular positions of
`b` ending at `p`. -/
def runEnd (b : List Char) : Nat → Nat
  | 0 => if nonPopB b 0 then 1 else 0
  | p + 1 => if nonPopB b (p + 1) then runEnd b p + 1 else 0

/-- The 1-based indices of the populated cells of a probe row, `col` being
the index of the first cell (proof-side view of the detection loop). -/
def popIndicesFrom (cells : List Cell) (col : Nat) : List Nat :=
  match cells with
  | [] => []
  | c :: rest =>
    (if populated c then [col] else []) ++ popIndicesFrom rest (col + 1)

/-- The dict key a kept block contributes: the stripped `str()` of its
row 0, column B cell. -/
def razaoOf (g : List (List Cell)) : String :=
  pyStripStr (pyStr (getCell (g.getD 0 []) 1))

/-- The summed block sizes of a block list. -/
def sumK (L : List Triple) : Nat := (L.map (fun t => t.2.2)).sum

/-- Well-formedness of a candidate match block for `a`/`b` on the ranges
`[alo, ahi)` x `[blo, bhi)`: in range, and a genuine common substring. -/
def tripleOK (a b : List Char) (alo ahi blo bhi : Nat) (t : Triple) : Prop :=
  alo ≤ t.1 ∧ blo ≤ t.2.1 ∧ t.1 + t.2.2 ≤ ahi ∧ t.2.1 + t.2.2 ≤ bhi ∧
  ∀ s, s < t.2.2 → (a.get? (t.1 + s)).isSome ∧
    a.get? (t.1 + s) = b.get? (t.2.1 + s)

/-- Well-formedness of a `j2len` map after the rows below `I` have been
processed: every non-zero entry is an in-range genuine common-suffix
chain ending at row `I - 1`. -/
def dpBound (a b : List Char) (alo blo bhi I : Nat) (m : Nat → Nat) : Prop :=
  ∀ j, m j ≠ 0 → blo ≤ j ∧ j < bhi ∧ m j ≤ j + 1 - blo ∧ m j ≤ I - alo ∧
    ∀ t, t < m j → (a.get? (I - 1 - t)).isSome ∧
      a.get? (I - 1 - t) = b.get? (j - t)

/-- A common-suffix chain of length `m` ending at `(i, j)` of the
self-comparison of `q`, all of whose characters are non-popular. -/
def selfChain (q : List Char) (i j m : Nat) : Prop :=
  m ≤ i + 1 ∧ m ≤ j + 1 ∧
  ∀ t, t < m → ∃ c, q.get? (i - t) = some c ∧ q.get? (j - t) = some c ∧
    popularChar q c = false

/-- The state invariant of the self-comparison DP after row `i` is done:
the best block is diagonal and in range, the row map is dominated by the
best size and holds genuine non-popular chains, and the best size
dominates the non-popular runs ending at the processed rows, exactly at
the diagonal entry of the current row. -/
def selfRowOut (q : List Char) (i : Nat) (R : (Nat → Nat) × Triple) : Prop :=
  R.2.1 = R.2.2.1 ∧ R.2.2.1 + R.2.2.2 ≤ i + 1 ∧
  (∀ j, R.1 j ≤ R.2.2.2) ∧
  (∀ j, R.1 j ≠ 0 → selfChain q i j (R.1 j)) ∧
  (∀ p, p < i → runEnd q p ≤ R.2.2.2) ∧
  runEnd q i ≤ R.2.2.2 ∧ R.1 i = runEnd q i

/-- A diagonal block that fits inside `[0, n)`. -/
def diagTriple (n : Nat) (t : Triple) : Prop :=
  t.1 = t.2.1 ∧ t.2.1 + t.2.2 ≤ n

/-! ### Concrete sample inputs used by witnesses and counterexamples -/

/-- A sample record. -/
def sampleRegistro : Registro :=
  ⟨"ABC", "11.111.111/0001-11", "Rua A, 100", "1111-1111", "a@abc.com"⟩

/-- A normalized roster dict with the single key `abc`. -/
def sampleRoster : List (String × Registro) := [("abc", sampleRegistro)]

/-- An uploaded file that matches the sample roster but fails to open. -/
def badFile : UploadedFile := ⟨"abc.xlsx", Except.error "boom"⟩

/-- A roster frame whose single 6-row block has a whitespace-only string
(not `NaN`) in row 0, column B. -/
def dfBlankLead : List (List Cell) := List.replicate 6 [none, some " "]

/-- One complete 6-row block with razão social `A` in column B. -/
def blocoA : List (List Cell) :=
  [[none, some "A"], [none, some "c1"], [none, some "e1"],
   [none, some "t1"], [none, some "m1"], [none, none]]

/-- Two complete blocks with the same razão social. -/
def dfDupNames : List (List Cell) := blocoA ++ blocoA

/-- A worksheet with one pre-existing merged region and no cells. -/
def wsMerged : Worksheet := ⟨[], [(10, 1, 10, 2)]⟩

/-- A worksheet whose row 6 is populated in columns 1, 2, 3 and 5, with a
blank (whitespace-only) column 4 and no other rows. -/
def wsProbe : Worksheet :=
  ⟨[[], [], [], [], [],
    [some "a", some "b", some "c", some " ", some "e"]], []⟩

/-!
## Theorems

Helper lemmas first, then one theorem per claim (with witnesses and
counterexamples where applicable).
-/

/-- `Char.ofNat` of a valid scalar value has that value. -/
theorem toNat_ofNat_valid (n : Nat) (h : n.isValidChar) :
    (Char.ofNat n).toNat = n := by
  unfold Char.ofNat
  rw [dif_pos h]
  rfl

/-- Value of `pyLower` on the code-point level. -/
theorem pyLower_toNat (c : Char) :
    (pyLower c).toNat = if 65 ≤ c.toNat ∧ c.toNat ≤ 90 then c.toNat + 32
      else c.toNat := by
  unfold pyLower
  split
  · next h => exact toNat_ofNat_valid _ (Or.inl (by omega))
  · rfl

/-- `pyLower` keeps the ASCII range. -/
theorem pyLower_ascii {c : Char} (h : c.toNat < 128) :
    (pyLower c).toNat < 128 := by
  have ht := pyLower_toNat c
  split at ht <;> omega

/-- `pyLower` maps alphanumeric characters to alphanumeric characters. -/
theorem pyLower_alnum {c : Char} (h : pyIsAlnum c = true) :
    pyIsAlnum (pyLower c) = true := by
  simp only [pyIsAlnum, Bool.or_eq_true, Bool.and_eq_true,
    decide_eq_true_eq] at h ⊢
  have ht := pyLower_toNat c
  split at ht <;> rw [ht] <;> omega

/-- `pyLower` fixes characters outside the upper-case range. -/
theorem pyLower_not_upper {c : Char} (h : ¬(65 ≤ c.toNat ∧ c.toNat ≤ 90)) :
    pyLower c = c := by
  unfold pyLower
  rw [if_neg h]

/-- `pyLower` fixes whitespace characters. -/
theorem pyLower_space {c : Char} (h : pyIsSpace c = true) :
    pyLower c = c := by
  apply pyLower_not_upper
  simp only [pyIsSpace, Bool.or_eq_true, Bool.and_eq_true,
    decide_eq_true_eq] at h
  omega

/-- `pyLower` is idempotent. -/
theorem pyLower_pyLower (c : Char) : pyLower (pyLower c) = pyLower c := by
  apply pyLower_not_upper
  have ht := pyLower_toNat c
  split at ht <;> omega

/-- Members of `pyStrip l` are members of `l`. -/
theorem pyStrip_subset (l : List Char) : pyStrip l ⊆ l := by
  intro c hc
  unfold pyStrip at hc
  exact (List.dropWhile_sublist pyIsSpace).subset
    ((List.rdropWhile_prefix pyIsSpace _).sublist.subset hc)

/-- `dropWhile` leaves a list alone when its head (if any) fails the
predicate. -/
theorem dropWhile_eq_self_of_head {p : Char → Bool} {l : List Char}
    (h : ∀ c, l.head? = some c → p c = false) : l.dropWhile p = l := by
  cases l with
  | nil => rfl
  | cons a as =>
    have := h a rfl
    simp [List.dropWhile, this]

/-- The head of a non-empty prefix is the head of the list. -/
theorem head?_of_prefix {l m : List Char} (h : l <+: m) {c : Char}
    (hc : l.head? = some c) : m.head? = some c := by
  obtain ⟨t, rfl⟩ := h
  cases l with
  | nil => simp at hc
  | cons a as => simp_all

/-- `pyStrip` is idempotent. -/
theorem pyStrip_pyStrip (l : List Char) : pyStrip (pyStrip l) = pyStrip l := by
  unfold pyStrip
  have h1 : (List.rdropWhile pyIsSpace (l.dropWhile pyIsSpace)).dropWhile
      pyIsSpace = List.rdropWhile pyIsSpace (l.dropWhile pyIsSpace) := by
    apply dropWhile_eq_self_of_head
    intro c hc
    have hc2 : (l.dropWhile pyIsSpace).head? = some c :=
      head?_of_prefix (List.rdropWhile_prefix pyIsSpace _) hc
    have := List.head?_dropWhile_not pyIsSpace l
    rw [hc2] at this
    simpa using this
  rw [h1, List.rdropWhile_idempotent]

/-- `flatMap` of a pointwise-singleton function is the identity. -/
theorem flatMap_singleton_id {f : Char → List Char} {l : List Char}
    (h : ∀ c ∈ l, f c = [c]) : l.flatMap f = l := by
  induction l with
  | nil => rfl
  | cons a as ih =>
    rw [List.flatMap_cons, h a (by simp), ih fun c hc => h c (by simp [hc])]
    rfl

/-- Pointwise-fixed `map` is the identity. -/
theorem map_eq_self_of_fixed {f : Char → Char} {l : List Char}
    (h : ∀ c ∈ l, f c = c) : l.map f = l := by
  induction l with
  | nil => rfl
  | cons a as ih =>
    rw [List.map_cons, h a (by simp), ih fun c hc => h c (by simp [hc])]

/-- Every character of `nfkdAscii c` is ASCII. -/
theorem nfkdAscii_ascii (c : Char) : ∀ d ∈ nfkdAscii c, d.toNat < 128 := by
  intro d hd
  unfold nfkdAscii at hd
  split at hd
  · next h => simp at hd; subst hd; omega
  · cases hl : latinFoldTable.lookup c with
    | none => rw [hl] at hd; simp at hd
    | some v =>
      rw [hl] at hd
      simp at hd
      have hmem : (c, v) ∈ latinFoldTable := by
        have := List.lookup_eq_some_iff.mp hl
        obtain ⟨l₁, l₂, heq, -⟩ := this
        rw [heq]
        simp
      have : ∀ p ∈ latinFoldTable, ∀ d ∈ p.2, d.toNat < 128 := by decide
      exact this (c, v) hmem d hd

/-- Characters of the normalized string: ASCII, alphanumeric-or-space,
and fixed by `pyLower`. -/
theorem normalizar_chars (s : String) :
    ∀ c ∈ (normalizar s).data,
      c.toNat < 128 ∧ (pyIsAlnum c || pyIsSpace c) = true ∧ pyLower c = c := by
  intro c hc
  unfold normalizar at hc
  simp only at hc
  have hc2 := pyStrip_subset _ hc
  rw [List.mem_map] at hc2
  obtain ⟨c', hc', rfl⟩ := hc2
  rw [List.mem_filter] at hc'
  obtain ⟨hmem, hq⟩ := hc'
  have hascii : c'.toNat < 128 := by
    rw [List.mem_flatMap] at hmem
    obtain ⟨a, -, ha⟩ := hmem
    exact nfkdAscii_ascii a c' ha
  refine ⟨pyLower_ascii hascii, ?_, pyLower_pyLower c'⟩
  rw [Bool.or_eq_true] at hq ⊢
  cases hq with
  | inl h => exact Or.inl (pyLower_alnum h)
  | inr h => rw [pyLower_space h]; exact Or.inr h

/-- The normalized string is already stripped. -/
theorem normalizar_stripped (s : String) :
    pyStrip (normalizar s).data = (normalizar s).data := by
  unfold normalizar
  simp only [String.data]
  exact pyStrip_pyStrip _

/-- `nfkdAscii` is the singleton on ASCII characters. -/
theorem nfkdAscii_of_ascii {c : Char} (h : c.toNat < 128) :
    nfkdAscii c = [c] := by
  unfold nfkdAscii
  rw [if_pos h]

/-- `String.mk` of a string's data is that string. -/
theorem mk_data (s : String) : String.mk s.data = s := rfl

/-- `normalizar` fixes any string whose characters are ASCII,
alphanumeric-or-space and lower-case, and which is already stripped. -/
theorem normalizar_fixed {y : String}
    (hc : ∀ c ∈ y.data,
      c.toNat < 128 ∧ (pyIsAlnum c || pyIsSpace c) = true ∧ pyLower c = c)
    (hs : pyStrip y.data = y.data) : normalizar y = y := by
  unfold normalizar
  simp only
  rw [flatMap_singleton_id fun c hcm => nfkdAscii_of_ascii (hc c hcm).1,
    List.filter_eq_self.mpr fun c hcm => (hc c hcm).2.1,
    map_eq_self_of_fixed fun c hcm => (hc c hcm).2.2, hs]

/-- C8: `normalizar` is a total function whose output contains only ASCII
alphanumeric or whitespace characters, is lower-case (fixed by `pyLower`)
and is trimmed (fixed by `pyStrip`); on the sample input the diacritics
are stripped, the punctuation removed, the case folded, and the internal
spacing left by removed punctuation kept. -/
theorem c8_normalize_total_normal_form :
    (∀ s : String, ∀ c ∈ (normalizar s).data,
      c.toNat < 128 ∧ (pyIsAlnum c || pyIsSpace c) = true ∧ pyLower c = c) ∧
    (∀ s : String, pyStrip (normalizar s).data = (normalizar s).data) ∧
    normalizar "Companhia Ação & Cia." = "companhia acao  cia" :=
  ⟨normalizar_chars, normalizar_stripped, rfl⟩

/-- Witness for C8 at a concrete character of the concrete normalized
sample. -/
theorem c8_normalize_total_normal_form_witness :
    'c' ∈ (normalizar "Companhia Ação & Cia.").data ∧
      ('c'.toNat < 128 ∧ (pyIsAlnum 'c' || pyIsSpace 'c') = true ∧
        pyLower 'c' = 'c') :=
  ⟨by decide,
   c8_normalize_total_normal_form.1 "Companhia Ação & Cia." 'c' (by decide)⟩

/-- C9: normalization is idempotent. -/
theorem c9_normalize_idempotent (x : String) :
    normalizar (normalizar x) = normalizar x :=
  normalizar_fixed (normalizar_chars x) (normalizar_stripped x)

/-- C3 counterexample: on a sheet with one pre-existing merged region the
stamped sheet's merged regions are not exactly the five header merges (the
code never unmerges; the pre-existing region survives). -/
theorem c3_counterexample :
    (stampHeader wsMerged sampleRegistro 2).merges ≠ headerMerges 2 := by
  decide

/-- C3 (amended): the stamping block performs no unmerging; after stamping
the sheet's merged regions are the pre-existing regions followed by the
five newly created header merges. -/
theorem c3_merges_old_plus_header (ws : Worksheet) (info : Registro)
    (last_col : Nat) :
    (stampHeader ws info last_col).merges = ws.merges ++ headerMerges last_col := by
  simp [stampHeader, insertRows5, mergeCells, setCellValue, headerMerges]

/-- C5: the transformed sheet is the original with its contents shifted
down by exactly five rows (geometry detection having read the original row
6), the five new rows carrying exactly the five labelled header lines in
column A and nothing else, and with the five header merges (from column 1
to the detected last column) appended to the merge list; no other cell is
modified. -/
theorem c5_stamp_frame (ws : Worksheet) (info : Registro) :
    (transformSheet ws info).rows = headerRows info ++ ws.rows ∧
    (transformSheet ws info).merges =
      ws.merges ++ headerMerges (detectLastCol ws) := by
  constructor
  · rfl
  · simp [transformSheet, stampHeader, insertRows5, mergeCells, setCellValue,
      headerMerges]

/-- `lastColLoop` returns the last populated 1-based index, or the
accumulator when there is none. -/
theorem lastColLoop_eq_getLast (cells : List Cell) :
    ∀ col acc, acc ≤ col →
      lastColLoop cells col acc = ((popIndicesFrom cells col).getLast?).getD acc := by
  induction cells with
  | nil => intro col acc _; simp [lastColLoop, popIndicesFrom]
  | cons c rest ih =>
    intro col acc hac
    cases c with
    | none =>
      have h1 : lastColLoop (none :: rest) col acc =
          lastColLoop rest (col + 1) acc := rfl
      have h2 : popIndicesFrom (none :: rest) col =
          popIndicesFrom rest (col + 1) := by
        simp [popIndicesFrom, populated]
      rw [h1, h2]
      exact ih _ _ (by omega)
    | some s =>
      have h1 : lastColLoop (some s :: rest) col acc = lastColLoop rest (col + 1)
          (if pyStripStr s ≠ "" then max acc col else acc) := rfl
      by_cases hs : pyStripStr s = ""
      · have h2 : popIndicesFrom (some s :: rest) col =
            popIndicesFrom rest (col + 1) := by
          simp [popIndicesFrom, populated, hs]
        rw [h1, if_neg (by simp [hs]), h2]
        exact ih _ _ (by omega)
      · have h2 : popIndicesFrom (some s :: rest) col =
            col :: popIndicesFrom rest (col + 1) := by
          simp [popIndicesFrom, populated, hs]
        rw [h1, if_pos (by simp [hs]), h2]
        have hmax : max acc col = col := by omega
        rw [hmax, ih (col + 1) col (by omega)]
        cases hrest : popIndicesFrom rest (col + 1) with
        | nil => simp
        | cons x xs =>
          cases hlast : (x :: xs).getLast? with
          | none => simp at hlast
          | some v => simp [hlast]

/-- The enumerated populated indices are `popIndicesFrom`. -/
theorem enum_filter_eq_popIndices (cells : List Cell) :
    ∀ n, ((List.enumFrom n cells).filter (fun p => populated p.2)).map
        (fun p => p.1 + 1) = popIndicesFrom cells (n + 1) := by
  induction cells with
  | nil => intro n; simp [popIndicesFrom]
  | cons c rest ih =>
    intro n
    rw [List.enumFrom_cons, popIndicesFrom]
    cases hc : populated c with
    | false => simp [List.filter_cons, hc, ih (n + 1)]
    | true => simp [List.filter_cons, hc, ih (n + 1)]

/-- C7: the geometry detector returns the 1-based index of the right-most
populated cell of the probe row (row 6), and 1 when none is populated; on
a probe row populated in columns 1, 2, 3 and 5 with a blank column 4 it
returns 5. -/
theorem c7_detect_rightmost :
    (∀ ws : Worksheet,
      detectLastCol ws = rightmostPopulated (ws.rows.getD 5 [])) ∧
    detectLastCol wsProbe = 5 := by
  constructor
  · intro ws
    unfold detectLastCol rightmostPopulated
    rw [lastColLoop_eq_getLast _ 1 1 le_rfl]
    rw [show (ws.rows.getD 5 []).enum = List.enumFrom 0 (ws.rows.getD 5 []) from rfl]
    rw [enum_filter_eq_popIndices]
  · decide

/-- The fuel of `removeXlsxF` is irrelevant as long as it covers the list
length, so `removeXlsx` equals the unbounded left-to-right scan. -/
theorem removeXlsxF_fuel :
    ∀ (f₁ : Nat) {l : List Char} (f₂ : Nat), l.length ≤ f₁ → l.length ≤ f₂ →
      removeXlsxF f₁ l = removeXlsxF f₂ l := by
  intro f₁
  induction f₁ with
  | zero =>
    intro l f₂ h1 _
    have : l = [] := List.eq_nil_of_length_eq_zero (by omega)
    subst this
    cases f₂ <;> rfl
  | succ f ih =>
    intro l f₂ h1 h2
    cases l with
    | nil => cases f₂ <;> rfl
    | cons c rest =>
      cases f₂ with
      | zero => simp at h2
      | succ g =>
        rw [removeXlsxF, removeXlsxF]
        split
        · exact ih g (by simp at h1 ⊢; omega) (by simp at h2 ⊢; omega)
        · rw [ih g (by simp at h1 ⊢; omega) (by simp at h2 ⊢; omega)]

/-- `removeXlsxF` never lengthens the list. -/
theorem removeXlsxF_length_le :
    ∀ (fuel : Nat) (l : List Char), (removeXlsxF fuel l).length ≤ l.length := by
  intro fuel
  induction fuel with
  | zero => intro l; cases l <;> simp [removeXlsxF]
  | succ f ih =>
    intro l
    cases l with
    | nil => simp [removeXlsxF]
    | cons c rest =>
      rw [removeXlsxF]
      split
      · have := ih (rest.drop 4)
        simp at this ⊢
        omega
      · have := ih rest
        simp
        omega

/-- A list with no occurrence of `.xlsx` is unchanged by the scan. -/
theorem removeXlsxF_of_not_infix :
    ∀ (fuel : Nat) {l : List Char}, l.length ≤ fuel → ¬ xlsxPat <:+: l →
      removeXlsxF fuel l = l := by
  intro fuel
  induction fuel with
  | zero =>
    intro l h1 _
    have : l = [] := List.eq_nil_of_length_eq_zero (by omega)
    subst this
    rfl
  | succ f ih =>
    intro l h1 h2
    cases l with
    | nil => rfl
    | cons c rest =>
      rw [removeXlsxF]
      split
      · next hpre =>
        exact absurd (List.isPrefixOf_iff_prefix.mp hpre).isInfix h2
      · rw [ih (by simp at h1 ⊢; omega)]
        intro hinf
        exact h2 (hinf.trans (List.suffix_cons c rest).isInfix)

/-- The scan strictly shortens any list containing the pattern. -/
theorem removeXlsxF_length_lt :
    ∀ (u : List Char) (fuel : Nat) (v : List Char),
      (u ++ xlsxPat ++ v).length ≤ fuel →
      (removeXlsxF fuel (u ++ xlsxPat ++ v)).length < (u ++ xlsxPat ++ v).length := by
  intro u
  induction u with
  | nil =>
    intro fuel v hf
    cases fuel with
    | zero => simp [xlsxPat] at hf
    | succ f =>
      rw [show ([] : List Char) ++ xlsxPat ++ v =
        '.' :: ('x' :: 'l' :: 's' :: 'x' :: v) from rfl]
      rw [removeXlsxF]
      rw [if_pos (by simp [xlsxPat, List.isPrefixOf_iff_prefix])]
      have h1 : ('x' :: 'l' :: 's' :: 'x' :: v).drop 4 = v := rfl
      rw [h1]
      have := removeXlsxF_length_le f v
      simp only [List.length_cons]
      omega
  | cons c u' ih =>
    intro fuel v hf
    cases fuel with
    | zero => simp [xlsxPat] at hf
    | succ f =>
      rw [show c :: u' ++ xlsxPat ++ v = c :: (u' ++ xlsxPat ++ v) from by simp]
      rw [removeXlsxF]
      split
      · have hle := removeXlsxF_length_le f ((u' ++ xlsxPat ++ v).drop 4)
        simp at hle ⊢
        omega
      · have := ih f v (by simp at hf ⊢; omega)
        simp at this ⊢
        omega

/-- `removeXlsx` strictly shortens any list containing the pattern. -/
theorem removeXlsx_length_lt_of_infix (u v : List Char) :
    (removeXlsx (u ++ xlsxPat ++ v)).length < (u ++ xlsxPat ++ v).length :=
  removeXlsxF_length_lt u _ v le_rfl

/-- C10: the match key is `nome.replace(".xlsx", "").strip()`: on the
sample name both the interior and the trailing `.xlsx` occurrences are
removed; in general `removeXlsx` leaves a name unchanged exactly when the
name contains no occurrence of `.xlsx` anywhere, and alters every name
that contains one (not only a trailing extension). -/
theorem c10_replace_all_occurrences :
    base_nome "a.xlsx.backup.xlsx" = "a.backup" ∧
    (∀ l : List Char, ¬ xlsxPat <:+: l → removeXlsx l = l) ∧
    (∀ u v : List Char, removeXlsx (u ++ xlsxPat ++ v) ≠ u ++ xlsxPat ++ v) := by
  refine ⟨by decide, fun l h => removeXlsxF_of_not_infix l.length le_rfl h,
    fun u v heq => ?_⟩
  have := removeXlsx_length_lt_of_infix u v
  rw [heq] at this
  omega

/-- Witness for C10 at concrete inputs. -/
theorem c10_replace_all_occurrences_witness :
    (¬ xlsxPat <:+: "abc".data ∧ removeXlsx "abc".data = "abc".data) ∧
      removeXlsx ("a".data ++ xlsxPat ++ "b".data) ≠
        "a".data ++ xlsxPat ++ "b".data :=
  ⟨⟨by decide, c10_replace_all_occurrences.2.1 "abc".data (by decide)⟩,
   c10_replace_all_occurrences.2.2 "a".data "b".data⟩

/-- Members of a dict after an update: an old entry or the new pair. -/
theorem dictInsert_mem {d : List (String × Registro)} {k : String}
    {v : Registro} {e : String × Registro} (h : e ∈ dictInsert d k v) :
    e ∈ d ∨ e = (k, v) := by
  unfold dictInsert at h
  split at h
  · rw [List.mem_map] at h
    obtain ⟨p, hp, he⟩ := h
    by_cases hk : p.1 = k
    · right; rw [← he, if_pos hk]
    · left; rw [← he, if_neg hk]; exact hp
  · rw [List.mem_append] at h
    cases h with
    | inl h => exact Or.inl h
    | inr h => right; simpa using h

/-- The updated key is a key of the updated dict. -/
theorem dictInsert_key_mem (d : List (String × Registro)) (k : String)
    (v : Registro) : k ∈ (dictInsert d k v).map Prod.fst := by
  unfold dictInsert
  split
  · next hany =>
    rw [List.any_eq_true] at hany
    obtain ⟨p, hp, hk⟩ := hany
    rw [List.mem_map]
    refine ⟨(k, v), ?_, rfl⟩
    rw [List.mem_map]
    exact ⟨p, hp, by rw [if_pos (by simpa using hk)]⟩
  · simp

/-- Updating a dict keeps all existing keys. -/
theorem dictInsert_keys_sub {d : List (String × Registro)} {k k' : String}
    {v : Registro} (h : k' ∈ d.map Prod.fst) :
    k' ∈ (dictInsert d k v).map Prod.fst := by
  unfold dictInsert
  rw [List.mem_map] at h
  obtain ⟨p, hp, hk⟩ := h
  split
  · rw [List.mem_map]
    by_cases hpk : p.1 = k
    · exact ⟨(k, v), List.mem_map.mpr ⟨p, hp, by rw [if_pos hpk]⟩,
        by simp [← hk, hpk]⟩
    · exact ⟨p, List.mem_map.mpr ⟨p, hp, by rw [if_neg hpk]⟩, hk⟩
  · rw [List.map_append, List.mem_append]
    exact Or.inl (List.mem_map.mpr ⟨p, hp, hk⟩)

/-- Updating a dict at a fresh key appends the new pair. -/
theorem dictInsert_fresh {d : List (String × Registro)} {k : String}
    (v : Registro) (h : k ∉ d.map Prod.fst) :
    dictInsert d k v = d ++ [(k, v)] := by
  unfold dictInsert
  rw [if_neg]
  intro hany
  rw [List.any_eq_true] at hany
  obtain ⟨p, hp, hk⟩ := hany
  exact h (List.mem_map.mpr ⟨p, hp, by simpa using hk⟩)

/-- The fuel of `extrairGoF` is irrelevant once it covers the row count. -/
theorem extrairGoF_fuel :
    ∀ (f₁ : Nat) {rows : List (List Cell)} (f₂ : Nat)
      (dados : List (String × Registro)),
      rows.length ≤ f₁ → rows.length ≤ f₂ →
      extrairGoF f₁ rows dados = extrairGoF f₂ rows dados := by
  intro f₁
  induction f₁ with
  | zero =>
    intro rows f₂ dados h1 _
    have : rows = [] := List.eq_nil_of_length_eq_zero (by omega)
    subst this
    cases f₂ <;> rfl
  | succ f ih =>
    intro rows f₂ dados h1 h2
    cases rows with
    | nil => cases f₂ <;> rfl
    | cons r rest =>
      cases f₂ with
      | zero => simp at h2
      | succ g =>
        rw [extrairGoF, extrairGoF]
        exact ih g _ (by simp at h1 ⊢; omega) (by simp at h2 ⊢; omega)

/-- The fuel of `chunks6F` is irrelevant once it covers the row count. -/
theorem chunks6F_fuel :
    ∀ (f₁ : Nat) {rows : List (List Cell)} (f₂ : Nat),
      rows.length ≤ f₁ → rows.length ≤ f₂ →
      chunks6F f₁ rows = chunks6F f₂ rows := by
  intro f₁
  induction f₁ with
  | zero =>
    intro rows f₂ h1 _
    have : rows = [] := List.eq_nil_of_length_eq_zero (by omega)
    subst this
    cases f₂ <;> rfl
  | succ f ih =>
    intro rows f₂ h1 h2
    cases rows with
    | nil => cases f₂ <;> rfl
    | cons r rest =>
      cases f₂ with
      | zero => simp at h2
      | succ g =>
        rw [chunks6F, chunks6F]
        rw [ih g (by simp at h1 ⊢; omega) (by simp at h2 ⊢; omega)]

/-- On a non-empty frame, `chunks6` peels off the leading 6-row group. -/
theorem chunks6_cons (rows : List (List Cell)) (h : rows ≠ []) :
    chunks6 rows = rows.take 6 :: chunks6 (rows.drop 6) := by
  unfold chunks6
  cases rows with
  | nil => exact absurd rfl h
  | cons r rest =>
    have h0 : chunks6F (r :: rest).length (r :: rest) =
        (r :: rest).take 6 :: chunks6F rest.length ((r :: rest).drop 6) := rfl
    rw [h0, chunks6F_fuel rest.length ((r :: rest).drop 6).length
      (by simp only [List.length_drop, List.length_cons]; omega) le_rfl]

/-- One step of the extraction loop on a non-empty frame. -/
theorem extrairGoF_cons (fuel : Nat) (rows : List (List Cell))
    (dados : List (String × Registro)) (hr : rows ≠ [])
    (hf : rows.length ≤ fuel + 1) :
    extrairGoF (fuel + 1) rows dados =
      extrairGoF fuel (rows.drop 6)
        (if (rows.take 6).length < 2 ||
            (getCell ((rows.take 6).getD 0 []) 1).isNone then dados
         else dictInsert dados
           (pyStripStr (pyStr (getCell ((rows.take 6).getD 0 []) 1)))
           (registroOfBloco (rows.take 6))) := by
  cases rows with
  | nil => exact absurd rfl hr
  | cons r rest => rw [extrairGoF]

/-- Every entry produced by the extraction loop on top of `dados` is an
old entry or comes from a kept 6-row group of the frame. -/
theorem extrairGoF_mem :
    ∀ (fuel : Nat) (rows : List (List Cell))
      (dados : List (String × Registro)) (e : String × Registro),
      rows.length ≤ fuel → e ∈ extrairGoF fuel rows dados →
      e ∈ dados ∨ ∃ g ∈ chunks6 rows, 2 ≤ g.length ∧
        getCell (g.getD 0 []) 1 ≠ none ∧ e = (razaoOf g, registroOfBloco g) := by
  intro fuel
  induction fuel with
  | zero =>
    intro rows dados e h1 h2
    have : rows = [] := List.eq_nil_of_length_eq_zero (by omega)
    subst this
    exact Or.inl h2
  | succ f ih =>
    intro rows dados e h1 h2
    cases hrows : rows with
    | nil => subst hrows; exact Or.inl h2
    | cons r rest =>
      subst hrows
      rw [extrairGoF] at h2
      have hdrop : (List.drop 6 (r :: rest)).length ≤ f := by
        simp only [List.length_drop, List.length_cons] at h1 ⊢
        omega
      have hchunks := chunks6_cons (r :: rest) (by simp)
      split at h2
      · cases ih _ _ _ hdrop h2 with
        | inl h => exact Or.inl h
        | inr h =>
          obtain ⟨g, hg, hprops⟩ := h
          exact Or.inr ⟨g, by rw [hchunks]; exact List.mem_cons_of_mem _ hg,
            hprops⟩
      · next hkeep =>
        cases ih _ _ _ hdrop h2 with
        | inl h =>
          cases dictInsert_mem h with
          | inl h => exact Or.inl h
          | inr h =>
            refine Or.inr ⟨(r :: rest).take 6, by rw [hchunks]; simp, ?_, ?_, h⟩
            · simp only [Bool.or_eq_true, not_or, decide_eq_true_eq,
                Bool.not_eq_true] at hkeep
              omega
            · simp only [Bool.or_eq_true, not_or, Bool.not_eq_true,
                Option.isNone_eq_false_iff, Option.isSome_iff_ne_none] at hkeep
              exact hkeep.2
        | inr h =>
          obtain ⟨g, hg, hprops⟩ := h
          exact Or.inr ⟨g, by rw [hchunks]; exact List.mem_cons_of_mem _ hg,
            hprops⟩

/-- The extraction loop never deletes a key. -/
theorem extrairGoF_keys_mono :
    ∀ (fuel : Nat) (rows : List (List Cell))
      (dados : List (String × Registro)) (k : String),
      k ∈ dados.map Prod.fst → k ∈ (extrairGoF fuel rows dados).map Prod.fst := by
  intro fuel
  induction fuel with
  | zero =>
    intro rows dados k h
    cases rows <;> exact h
  | succ f ih =>
    intro rows dados k h
    cases rows with
    | nil => exact h
    | cons r rest =>
      rw [extrairGoF]
      split
      · exact ih _ _ _ h
      · exact ih _ _ _ (dictInsert_keys_sub h)

/-- Every kept group's key is a key of the extracted dict. -/
theorem extrairGoF_key_of_chunk :
    ∀ (fuel : Nat) (rows : List (List Cell))
      (dados : List (String × Registro)) (g : List (List Cell)),
      rows.length ≤ fuel → g ∈ chunks6 rows → 2 ≤ g.length →
      getCell (g.getD 0 []) 1 ≠ none →
      razaoOf g ∈ (extrairGoF fuel rows dados).map Prod.fst := by
  intro fuel
  induction fuel with
  | zero =>
    intro rows dados g h1 hg _ _
    have : rows = [] := List.eq_nil_of_length_eq_zero (by omega)
    subst this
    simp [chunks6, chunks6F] at hg
  | succ f ih =>
    intro rows dados g h1 hg hlen hcell
    cases hrows : rows with
    | nil => subst hrows; simp [chunks6, chunks6F] at hg
    | cons r rest =>
      subst hrows
      rw [chunks6_cons _ (by simp), List.mem_cons] at hg
      have hdrop : (List.drop 6 (r :: rest)).length ≤ f := by
        simp only [List.length_drop, List.length_cons] at h1 ⊢
        omega
      rw [extrairGoF]
      cases hg with
      | inl hg =>
        subst hg
        rw [if_neg (by
          simp only [Bool.or_eq_true, not_or, decide_eq_true_eq,
            Bool.not_eq_true, Option.isNone_eq_false_iff,
            Option.isSome_iff_ne_none]
          exact ⟨by omega, hcell⟩)]
        exact extrairGoF_keys_mono f _ _ _ (dictInsert_key_mem _ _ _)
      | inr hg =>
        split
        · exact ih _ _ g hdrop hg hlen hcell
        · exact ih _ _ g hdrop hg hlen hcell

/-- C2 counterexample: a 6-row group whose leading cell holds a
whitespace-only string (not `NaN`) is kept, and the extracted dict then
contains a record with an empty razão social. -/
theorem c2_counterexample :
    ∃ e ∈ extrair_blocos_empresas dfBlankLead, e.2.RAZAO_SOCIAL = "" := by
  decide

/-- C2 (amended): the extraction discards a 6-row group only when it has
fewer than two rows or its row 0, column B cell is absent (`pd.isna`); a
present but blank cell is kept.  Hence every extracted entry comes from a
kept group and its legal name is the trimmed text of that group's leading
cell, which may be empty; conversely every kept group's key appears in
the dict. -/
theorem c2_discard_only_absent_lead :
    (∀ df : List (List Cell), (∀ r ∈ df, 2 ≤ r.length) →
      ∀ e ∈ extrair_blocos_empresas df,
        ∃ g ∈ chunks6 df, 2 ≤ g.length ∧ getCell (g.getD 0 []) 1 ≠ none ∧
          e.1 = razaoOf g ∧ e.2.RAZAO_SOCIAL = razaoOf g) ∧
    (∀ df : List (List Cell), (∀ r ∈ df, 2 ≤ r.length) →
      ∀ g ∈ chunks6 df, 2 ≤ g.length → getCell (g.getD 0 []) 1 ≠ none →
        razaoOf g ∈ (extrair_blocos_empresas df).map Prod.fst) := by
  constructor
  · intro df _ e he
    cases extrairGoF_mem df.length df [] e le_rfl he with
    | inl h => simp at h
    | inr h =>
      obtain ⟨g, hg, h2, h3, h4⟩ := h
      exact ⟨g, hg, h2, h3, by rw [h4], by rw [h4]; rfl⟩
  · intro df _ g hg hlen hcell
    exact extrairGoF_key_of_chunk df.length df [] g le_rfl hg hlen hcell

/-- Witness for C2 at the concrete blank-lead frame. -/
theorem c2_discard_only_absent_lead_witness :
    (∀ r ∈ dfBlankLead, 2 ≤ r.length) ∧
      (("", Registro.mk "" "" "" "" "") ∈ extrair_blocos_empresas dfBlankLead) ∧
      (∃ g ∈ chunks6 dfBlankLead, 2 ≤ g.length ∧
        getCell (g.getD 0 []) 1 ≠ none ∧
        ("", Registro.mk "" "" "" "" "").1 = razaoOf g ∧
        ("", Registro.mk "" "" "" "" "").2.RAZAO_SOCIAL = razaoOf g) :=
  ⟨by decide, by decide,
   c2_discard_only_absent_lead.1 dfBlankLead (by decide) _ (by decide)⟩

/-- The extraction loop on a frame made of complete 6-row groups plus an
optional short trailing group: with all leading cells present and all keys
fresh and pairwise distinct, the resulting dict is the input dict followed
by one entry per group, in order. -/
theorem extrairGoF_groups :
    ∀ (gs : List (List (List Cell))) (t : List (List Cell)) (fuel : Nat)
      (dados : List (String × Registro)),
      (gs.flatten ++ t).length ≤ fuel →
      (∀ g ∈ gs, g.length = 6) →
      (∀ g ∈ gs, getCell (g.getD 0 []) 1 ≠ none) →
      (t = [] ∨ (2 ≤ t.length ∧ t.length < 6 ∧ getCell (t.getD 0 []) 1 ≠ none)) →
      (∀ g ∈ gs ++ (if t = [] then [] else [t]),
        razaoOf g ∉ dados.map Prod.fst) →
      ((gs ++ (if t = [] then [] else [t])).map razaoOf).Nodup →
      extrairGoF fuel (gs.flatten ++ t) dados =
        dados ++ (gs ++ (if t = [] then [] else [t])).map
          (fun g => (razaoOf g, registroOfBloco g)) := by
  intro gs
  induction gs with
  | nil =>
    intro t fuel dados hfuel _ _ htail hfresh _
    rcases htail with rfl | ⟨ht2, ht6, htc⟩
    · cases fuel <;> simp [extrairGoF]
    · have htne : t ≠ [] := by intro h; rw [h] at ht2; simp at ht2
      simp only [List.flatten_nil, List.nil_append]
      cases t with
      | nil => exact absurd rfl htne
      | cons r rest =>
        cases fuel with
        | zero => simp at hfuel
        | succ f =>
          rw [extrairGoF]
          have htake : (r :: rest).take 6 = r :: rest :=
            List.take_of_length_le (by omega)
          have hdrop : (r :: rest).drop 6 = [] :=
            List.drop_eq_nil_of_le (by omega)
          rw [if_neg (by
            rw [htake]
            simp only [Bool.or_eq_true, not_or, decide_eq_true_eq,
              Bool.not_eq_true, Option.isNone_eq_false_iff,
              Option.isSome_iff_ne_none]
            exact ⟨by omega, htc⟩)]
          rw [htake, hdrop]
          rw [dictInsert_fresh _ (by
            apply hfresh
            rw [if_neg htne]
            simp)]
          rw [if_neg htne]
          cases f <;> simp [extrairGoF, razaoOf]
  | cons g gs' ih =>
    intro t fuel dados hfuel hlen hcell htail hfresh hnodup
    have hg6 : g.length = 6 := hlen g (by simp)
    have hgne : g ≠ [] := by intro h; rw [h] at hg6; simp at hg6
    have hflat : (g :: gs').flatten ++ t = g ++ (gs'.flatten ++ t) := by
      simp
    rw [hflat]
    cases fuel with
    | zero =>
      exfalso
      rw [hflat] at hfuel
      cases g with
      | nil => exact hgne rfl
      | cons x xs => simp at hfuel
    | succ f =>
      have hne : g ++ (gs'.flatten ++ t) ≠ [] := by
        cases g with
        | nil => exact absurd rfl hgne
        | cons x xs => simp
      cases hgg : g ++ (gs'.flatten ++ t) with
      | nil => exact absurd hgg hne
      | cons y ys =>
        rw [← hgg]
        rw [show extrairGoF (f + 1) (g ++ (gs'.flatten ++ t)) dados =
          extrairGoF f ((g ++ (gs'.flatten ++ t)).drop 6)
            (if ((g ++ (gs'.flatten ++ t)).take 6).length < 2 ||
                (getCell (((g ++ (gs'.flatten ++ t)).take 6).getD 0 []) 1).isNone
             then dados
             else dictInsert dados
               (pyStripStr (pyStr
                 (getCell (((g ++ (gs'.flatten ++ t)).take 6).getD 0 []) 1)))
               (registroOfBloco ((g ++ (gs'.flatten ++ t)).take 6))) from by
          rw [hgg, extrairGoF]]
        have htake : (g ++ (gs'.flatten ++ t)).take 6 = g := by
          rw [← hg6]
          exact List.take_left g _
        have hdrop : (g ++ (gs'.flatten ++ t)).drop 6 = gs'.flatten ++ t := by
          rw [← hg6]
          exact List.drop_left g _
        rw [htake, hdrop]
        rw [if_neg (by
          simp only [Bool.or_eq_true, not_or, decide_eq_true_eq,
            Bool.not_eq_true, Option.isNone_eq_false_iff,
            Option.isSome_iff_ne_none]
          exact ⟨by omega, hcell g (by simp)⟩)]
        rw [show pyStripStr (pyStr (getCell (g.getD 0 []) 1)) = razaoOf g
          from rfl]
        rw [dictInsert_fresh _ (hfresh g (by simp))]
        have hfuel' : (gs'.flatten ++ t).length ≤ f := by
          rw [hflat] at hfuel
          rw [List.length_append, hg6] at hfuel
          omega
        rw [ih t f (dados ++ [(razaoOf g, registroOfBloco g)]) hfuel'
          (fun g' hg' => hlen g' (by simp [hg']))
          (fun g' hg' => hcell g' (by simp [hg']))
          htail
          (by
            intro g' hg'
            rw [List.map_append, List.mem_append]
            rintro (hin | hin)
            · have hmem : g' ∈ (g :: gs') ++ (if t = [] then [] else [t]) := by
                rcases List.mem_append.mp hg' with h | h
                · exact List.mem_append.mpr (Or.inl (by simp [h]))
                · exact List.mem_append.mpr (Or.inr h)
              exact hfresh g' hmem hin
            · simp only [List.map_cons, List.map_nil, List.mem_singleton] at hin
              have hnd : razaoOf g ∉
                  (gs' ++ (if t = [] then [] else [t])).map razaoOf := by
                have hhead : ((g :: gs') ++ (if t = [] then [] else [t])).map
                    razaoOf = razaoOf g ::
                    (gs' ++ (if t = [] then [] else [t])).map razaoOf := by simp
                rw [hhead] at hnodup
                exact (List.nodup_cons.mp hnodup).1
              exact hnd (List.mem_map.mpr ⟨g', hg', hin⟩))
          (by
            have hhead : ((g :: gs') ++ (if t = [] then [] else [t])).map
                razaoOf = razaoOf g :: (gs' ++ (if t = [] then [] else [t])).map
                razaoOf := by simp
            rw [hhead] at hnodup
            exact (List.nodup_cons.mp hnodup).2)]
        simp

/-- C4 counterexample: a 12-row frame made of two complete 6-row groups
with the same (non-blank) razão social yields one record, not two: the
dict assignment `dados[razao] = ...` collapses duplicate legal names. -/
theorem c4_counterexample :
    dfDupNames.length = 12 ∧ (extrair_blocos_empresas dfDupNames).length = 1 := by
  decide

/-- C4 (amended): for a roster frame of N complete 6-row groups with
non-blank leading identity cells and pairwise-distinct trimmed legal
names, optionally followed by one short trailing group (at least 2 rows,
non-blank lead, distinct name), the extracted dict has exactly one entry
per group, in order, whose record fields are `registroOfBloco` of the
group (rows 0-4, column B, `str()`-coerced and stripped, with the empty
string for rows absent from the short trailing group). -/
theorem c4_extract_complete_groups
    (gs : List (List (List Cell))) (t : List (List Cell))
    (hw : ∀ r ∈ gs.flatten ++ t, 2 ≤ (r : List Cell).length)
    (hlen : ∀ g ∈ gs, g.length = 6)
    (hkey : ∀ g ∈ gs, getCell (g.getD 0 []) 1 ≠ none ∧ razaoOf g ≠ "")
    (htail : t = [] ∨ (2 ≤ t.length ∧ t.length < 6 ∧
      getCell (t.getD 0 []) 1 ≠ none ∧ razaoOf t ≠ ""))
    (hnodup : ((gs ++ (if t = [] then [] else [t])).map razaoOf).Nodup) :
    extrair_blocos_empresas (gs.flatten ++ t) =
      (gs ++ (if t = [] then [] else [t])).map
        (fun g => (razaoOf g, registroOfBloco g)) := by
  unfold extrair_blocos_empresas
  rw [extrairGoF_groups gs t _ [] le_rfl hlen (fun g hg => (hkey g hg).1)
    (by
      rcases htail with h | ⟨h1, h2, h3, -⟩
      · exact Or.inl h
      · exact Or.inr ⟨h1, h2, h3⟩)
    (by intro g _; simp) hnodup]
  simp

/-- Witness for C4: one complete group, no trailing group. -/
theorem c4_extract_complete_groups_witness :
    extrair_blocos_empresas ([blocoA].flatten ++ []) =
      ([blocoA] ++ (if ([] : List (List Cell)) = []
        then [] else [([] : List (List Cell))])).map
        (fun g => (razaoOf g, registroOfBloco g)) :=
  c4_extract_complete_groups [blocoA] [] (by decide) (by decide) (by decide)
    (Or.inl rfl) (by decide)

/-- The orchestrator fold, over any starting accumulator, appends the
per-file log lines and ZIP entries of each file in input order. -/
theorem processFiles_foldl_acc (d : List (String × Registro)) :
    ∀ (arquivos : List UploadedFile)
      (acc : List String × List (String × Worksheet)),
      arquivos.foldl (fun acc arquivo =>
        let nome_arquivo := arquivo.name
        let bn := base_nome nome_arquivo
        let nome_norm := normalizar bn
        match getCloseMatches1 nome_norm (d.map Prod.fst) with
        | none =>
          (acc.1 ++ ["❌ NÃO ENCONTRADO: " ++ bn ++ " (normalizado: " ++
            nome_norm ++ ")"], acc.2)
        | some chave =>
          let info := dictGet d chave
          let log1 := acc.1 ++ ["✅ " ++ bn ++ " → " ++ info.RAZAO_SOCIAL]
          match arquivo.wb with
          | .error e =>
            (log1 ++ ["⚠️ Erro ao abrir “" ++ nome_arquivo ++ "”: " ++ e],
             acc.2)
          | .ok wb => (log1, acc.2 ++ [(nome_arquivo, transformSheet wb info)]))
        acc =
      (acc.1 ++ arquivos.flatMap (logOfFile d),
       acc.2 ++ arquivos.filterMap (zipOfFile d)) := by
  intro arquivos
  induction arquivos with
  | nil => intro acc; simp
  | cons x xs ih =>
    intro acc
    rw [List.foldl_cons, ih]
    cases hm : getCloseMatches1 (normalizar (base_nome x.name))
        (d.map Prod.fst) with
    | none =>
      simp only [logOfFile, zipOfFile, hm, List.flatMap_cons,
        List.filterMap_cons]
      simp
    | some chave =>
      cases hwb : x.wb with
      | error e =>
        simp only [logOfFile, zipOfFile, hm, hwb, List.flatMap_cons,
          List.filterMap_cons]
        simp [hwb]
      | ok wb =>
        simp only [logOfFile, zipOfFile, hm, hwb, List.flatMap_cons,
          List.filterMap_cons]
        simp [hwb]

/-- C1 counterexample: one input file that fuzzy-matches the roster but
fails to open produces two log entries, and the Matched entry is appended
before the open error, not after a successful stamp. -/
theorem c1_counterexample :
    [badFile].length = 1 ∧ (processFiles sampleRoster [badFile]).1 =
      ["✅ abc → ABC", "⚠️ Erro ao abrir “abc.xlsx”: boom"] := by
  decide

/-- C1 (amended): the match log is the concatenation, in input-file order,
of the per-file contributions: one NotFound line for an unmatched file;
for a matched file a Matched line appended at match time - before the file
is opened - followed by an OpenError line when the open fails (two lines
for such a file), and nothing else when the file opens and is stamped; the
archive receives exactly the matched-and-opened files under their original
names. -/
theorem c1_log_per_file (d : List (String × Registro))
    (arquivos : List UploadedFile) :
    (processFiles d arquivos).1 = arquivos.flatMap (logOfFile d) ∧
    (processFiles d arquivos).2 = arquivos.filterMap (zipOfFile d) := by
  unfold processFiles
  rw [processFiles_foldl_acc d arquivos ([], [])]
  simp

/-- Members of a `b2j` position list point at occurrences of a
non-popular element. -/
theorem b2j_mem {b : List Char} {c : Char} {j : Nat} (h : j ∈ b2j b c) :
    j < b.length ∧ b.get? j = some c ∧ popularChar b c = false := by
  unfold b2j at h
  split at h
  · simp at h
  · next hp =>
    rw [List.mem_filter, List.mem_range] at h
    exact ⟨h.1, by simpa using h.2, by simpa using hp⟩

/-- `b2j` lists are strictly ascending. -/
theorem b2j_pairwise (b : List Char) (c : Char) :
    (b2j b c).Pairwise (· < ·) := by
  unfold b2j
  split
  · exact List.Pairwise.nil
  · exact (List.pairwise_lt_range _).sublist (List.filter_sublist _) |>.imp id

/-- Every occurrence of a non-popular element is listed in `b2j`. -/
theorem b2j_self_mem {b : List Char} {c : Char} {j : Nat}
    (hj : b.get? j = some c) (hp : popularChar b c = false) : j ∈ b2j b c := by
  unfold b2j
  rw [if_neg (by simp [hp])]
  rw [List.mem_filter, List.mem_range]
  have : j < b.length := by
    by_contra hge
    rw [List.get?_eq_none.mpr (by omega)] at hj
    exact Option.noConfusion hj
  exact ⟨this, by simpa using hj⟩

/-- `sameAt` unfolded. -/
theorem sameAt_true {a b : List Char} {i j : Nat}
    (h : sameAt a b i j = true) :
    (a.get? i).isSome ∧ a.get? i = b.get? j := by
  unfold sameAt at h
  cases ha : a.get? i with
  | none => rw [ha] at h; simp at h
  | some x =>
    cases hb : b.get? j with
    | none => rw [ha, hb] at h; simp at h
    | some y =>
      rw [ha, hb] at h
      simp at h
      simp [ha, hb, h]

/-- Backward extension preserves block well-formedness. -/
theorem extendBack_ok (a b : List Char) (alo ahi blo bhi : Nat) :
    ∀ (fuel : Nat) (t : Triple), tripleOK a b alo ahi blo bhi t →
      tripleOK a b alo ahi blo bhi (extendBack a b alo blo fuel t) := by
  intro fuel
  induction fuel with
  | zero => intro t ht; exact ht
  | succ f ih =>
    intro t ht
    obtain ⟨bi, bj, bs⟩ := t
    simp only [tripleOK] at ht
    obtain ⟨t1, t2, t3, t4, t5⟩ := ht
    rw [extendBack]
    split
    · next hcond =>
      simp only [Bool.and_eq_true, decide_eq_true_eq] at hcond
      obtain ⟨⟨h1, h2⟩, h3⟩ := hcond
      apply ih
      simp only [tripleOK]
      refine ⟨by omega, by omega, by omega, by omega, ?_⟩
      intro s hs
      cases s with
      | zero =>
        have := sameAt_true h3
        simpa using this
      | succ s' =>
        have h5 := t5 s' (by omega)
        have hia : bi - 1 + (s' + 1) = bi + s' := by omega
        have hja : bj - 1 + (s' + 1) = bj + s' := by omega
        rw [hia, hja]
        exact h5
    · simp only [tripleOK]
      exact ⟨t1, t2, t3, t4, t5⟩

/-- Forward extension preserves block well-formedness. -/
theorem extendFwd_ok (a b : List Char) (alo ahi blo bhi : Nat) :
    ∀ (fuel : Nat) (t : Triple), tripleOK a b alo ahi blo bhi t →
      tripleOK a b alo ahi blo bhi (extendFwd a b ahi bhi fuel t) := by
  intro fuel
  induction fuel with
  | zero => intro t ht; exact ht
  | succ f ih =>
    intro t ht
    obtain ⟨bi, bj, bs⟩ := t
    simp only [tripleOK] at ht
    obtain ⟨t1, t2, t3, t4, t5⟩ := ht
    rw [extendFwd]
    split
    · next hcond =>
      simp only [Bool.and_eq_true, decide_eq_true_eq] at hcond
      obtain ⟨⟨h1, h2⟩, h3⟩ := hcond
      apply ih
      simp only [tripleOK]
      refine ⟨t1, t2, by omega, by omega, ?_⟩
      intro s hs
      by_cases hlt : s < bs
      · exact t5 s hlt
      · have hseq : s = bs := by omega
        subst hseq
        exact sameAt_true h3
    · simp only [tripleOK]
      exact ⟨t1, t2, t3, t4, t5⟩

/-- One DP row preserves the map bound and block well-formedness. -/
theorem flmInner_ok (a b : List Char) (alo blo bhi : Nat) (i : Nat) (ci : Char)
    (hai : a.get? i = some ci) (halo : alo ≤ i) :
    ∀ (js : List Nat) (old newm : Nat → Nat) (best : Triple) (ahi : Nat),
      i < ahi →
      (∀ j ∈ js, b.get? j = some ci) →
      dpBound a b alo blo bhi i old →
      dpBound a b alo blo bhi (i + 1) newm →
      tripleOK a b alo ahi blo bhi best →
      dpBound a b alo blo bhi (i + 1)
          (flmInner blo bhi i js old newm best).1 ∧
        tripleOK a b alo ahi blo bhi (flmInner blo bhi i js old newm best).2 := by
  intro js
  induction js with
  | nil =>
    intro old newm best ahi _ _ _ hnew hbest
    exact ⟨hnew, hbest⟩
  | cons j js' ih =>
    intro old newm best ahi hiahi hmem hold hnew hbest
    rw [flmInner]
    split
    · exact ih old newm best ahi hiahi
        (fun j' hj' => hmem j' (by simp [hj'])) hold hnew hbest
    · split
      · exact ⟨hnew, hbest⟩
      · next hblo hbhi =>
        have hjlo : blo ≤ j := by omega
        have hjhi : j < bhi := by omega
        have hbj : b.get? j = some ci := hmem j (by simp)
        set K : Nat := (if j = 0 then 0 else old (j - 1)) + 1 with hK
        have hkj : K ≤ j + 1 - blo := by
          rw [hK]
          rcases Nat.eq_zero_or_pos j with h0 | hpos
          · subst h0
            simp
            omega
          · rw [if_neg (by omega)]
            by_cases hz : old (j - 1) = 0
            · rw [hz]; omega
            · have := hold (j - 1) hz
              omega
        have hki : K ≤ i + 1 - alo := by
          rw [hK]
          rcases Nat.eq_zero_or_pos j with h0 | hpos
          · subst h0
            simp
            omega
          · rw [if_neg (by omega)]
            by_cases hz : old (j - 1) = 0
            · rw [hz]; omega
            · have := hold (j - 1) hz
              omega
        have hchain : ∀ t, t < K →
            (a.get? (i - t)).isSome ∧ a.get? (i - t) = b.get? (j - t) := by
          intro t ht
          cases t with
          | zero =>
            constructor
            · rw [Nat.sub_zero, hai]
              rfl
            · rw [Nat.sub_zero, Nat.sub_zero, hai, hbj]
          | succ t' =>
            have hj1 : j ≠ 0 := by
              intro h0
              rw [hK, if_pos h0] at ht
              omega
            rw [hK, if_neg hj1] at ht
            have hz : old (j - 1) ≠ 0 := by omega
            have hprops := hold (j - 1) hz
            have hch := hprops.2.2.2.2 t' (by omega)
            have hia : i - 1 - t' = i - (t' + 1) := by omega
            have hja : j - 1 - t' = j - (t' + 1) := by omega
            rw [hia, hja] at hch
            exact hch
        have hnew' : dpBound a b alo blo bhi (i + 1)
            (fun j' => if j' = j then K else newm j') := by
          intro j' hj'
          by_cases hjj : j' = j
          · subst hjj
            simp only [if_pos rfl] at hj' ⊢
            refine ⟨hjlo, hjhi, hkj, hki, ?_⟩
            intro t ht
            have := hchain t ht
            simpa using this
          · simp only [if_neg hjj] at hj' ⊢
            exact hnew j' hj'
        have hK1 : 1 ≤ K := by rw [hK]; omega
        have hbest' : tripleOK a b alo ahi blo bhi
            (if best.2.2 < K then (i + 1 - K, j + 1 - K, K) else best) := by
          split
          · simp only [tripleOK]
            refine ⟨by omega, by omega, by omega, by omega, ?_⟩
            intro s hs
            have ht := hchain (K - 1 - s) (by omega)
            have hia : i - (K - 1 - s) = i + 1 - K + s := by omega
            have hja : j - (K - 1 - s) = j + 1 - K + s := by omega
            rw [hia, hja] at ht
            exact ht
          · exact hbest
        exact ih old _ _ ahi hiahi
          (fun j' hj' => hmem j' (by simp [hj'])) hold hnew' hbest'

/-- The DP row fold preserves block well-formedness. -/
theorem flmRows_fold_ok (a b : List Char) (alo blo bhi ahi : Nat)
    (b2jOfA : Nat → List Nat)
    (hOfA : ∀ i, i < ahi → ∃ ci, a.get? i = some ci ∧
      ∀ j ∈ b2jOfA i, b.get? j = some ci) :
    ∀ (m I : Nat) (st : (Nat → Nat) × Triple),
      alo ≤ I → I + m = ahi →
      dpBound a b alo blo bhi I st.1 →
      tripleOK a b alo ahi blo bhi st.2 →
      tripleOK a b alo ahi blo bhi
        (((List.range' I m).foldl
          (fun st i => flmInner blo bhi i (b2jOfA i) st.1 (fun _ => 0) st.2)
          st).2) := by
  intro m
  induction m with
  | zero => intro I st _ _ _ hbest; exact hbest
  | succ m' ih =>
    intro I st hIlo hIm hmap hbest
    rw [List.range'_succ, List.foldl_cons]
    obtain ⟨ci, hci, hjs⟩ := hOfA I (by omega)
    have hstep := flmInner_ok a b alo blo bhi I ci hci hIlo (b2jOfA I)
      st.1 (fun _ => 0) st.2 ahi (by omega) hjs hmap
      (fun j hj => absurd rfl hj) hbest
    exact ih (I + 1)
      (flmInner blo bhi I (b2jOfA I) st.1 (fun _ => 0) st.2)
      (by omega) (by omega) hstep.1 hstep.2

/-- `find_longest_match` returns an in-range genuine common block. -/
theorem findLongestMatch_ok (a b : List Char) (b2jb : Char → List Nat)
    (hb2j : ∀ c j, j ∈ b2jb c → b.get? j = some c)
    (alo ahi blo bhi : Nat) (h1 : alo ≤ ahi) (h2 : blo ≤ bhi)
    (h3 : ahi ≤ a.length) :
    tripleOK a b alo ahi blo bhi (findLongestMatch a b b2jb alo ahi blo bhi) := by
  unfold findLongestMatch
  apply extendFwd_ok
  apply extendBack_ok
  unfold flmRows
  apply flmRows_fold_ok a b alo blo bhi ahi
  · intro i hi
    have hisome : (a.get? i).isSome := by
      rw [List.get?_eq_getElem?, List.getElem?_eq_getElem (by omega)]
      rfl
    obtain ⟨ci, hci⟩ := Option.isSome_iff_exists.mp hisome
    refine ⟨ci, hci, ?_⟩
    intro j hj
    rw [hci] at hj
    simp only at hj
    exact hb2j ci j hj
  · exact le_rfl
  · omega
  · intro j hj
    exact absurd rfl hj
  · simp only [tripleOK]
    exact ⟨le_rfl, le_rfl, by omega, by omega, by omega⟩

/-- `sumK` over an append. -/
theorem sumK_append (L₁ L₂ : List Triple) :
    sumK (L₁ ++ L₂) = sumK L₁ + sumK L₂ := by
  simp [sumK]

/-- `sumK` over a cons. -/
theorem sumK_cons (t : Triple) (L : List Triple) :
    sumK (t :: L) = t.2.2 + sumK L := by
  simp [sumK]

/-- The recursive block collection: its blocks fit in the ranges, and when
they cover both ranges completely the two range slices agree pointwise. -/
theorem gmbGo_props (a b : List Char) (b2jb : Char → List Nat)
    (hb2j : ∀ c j, j ∈ b2jb c → b.get? j = some c) :
    ∀ (fuel alo ahi blo bhi : Nat),
      alo ≤ ahi → blo ≤ bhi → ahi ≤ a.length →
      (ahi - alo) + (bhi - blo) < fuel →
      sumK (gmbGo a b b2jb fuel alo ahi blo bhi) ≤ ahi - alo ∧
      sumK (gmbGo a b b2jb fuel alo ahi blo bhi) ≤ bhi - blo ∧
      (sumK (gmbGo a b b2jb fuel alo ahi blo bhi) = ahi - alo →
        sumK (gmbGo a b b2jb fuel alo ahi blo bhi) = bhi - blo →
        ∀ t, alo + t < ahi → a.get? (alo + t) = b.get? (blo + t)) := by
  intro fuel
  induction fuel with
  | zero => intro alo ahi blo bhi _ _ _ hm; omega
  | succ f ih =>
    intro alo ahi blo bhi h1 h2 h3 hm
    have htrip := findLongestMatch_ok a b b2jb hb2j alo ahi blo bhi h1 h2 h3
    rw [gmbGo]
    set T := findLongestMatch a b b2jb alo ahi blo bhi with hT
    simp only [tripleOK] at htrip
    obtain ⟨hTa, hTb, hTc, hTd, hTg⟩ := htrip
    by_cases hk : T.2.2 = 0
    · rw [if_pos hk]
      refine ⟨by simp [sumK], by simp [sumK], ?_⟩
      intro hs1 _ t htlt
      simp [sumK] at hs1
      omega
    · rw [if_neg hk]
      have hsub1 := ih alo T.1 blo T.2.1 (by omega) (by omega) (by omega)
        (by omega)
      have hsub2 := ih (T.1 + T.2.2) ahi (T.2.1 + T.2.2) bhi (by omega)
        (by omega) h3 (by omega)
      set S₁ := sumK (gmbGo a b b2jb f alo T.1 blo T.2.1) with hS₁
      set S₂ := sumK (gmbGo a b b2jb f (T.1 + T.2.2) ahi (T.2.1 + T.2.2) bhi)
        with hS₂
      obtain ⟨hA1, hA2, hAcov⟩ := hsub1
      obtain ⟨hB1, hB2, hBcov⟩ := hsub2
      rw [sumK_append, sumK_cons]
      refine ⟨by omega, by omega, ?_⟩
      intro he1 he2 t htlt
      have hs1a : S₁ = T.1 - alo := by omega
      have hs1b : S₁ = T.2.1 - blo := by omega
      have hs2a : S₂ = ahi - (T.1 + T.2.2) := by omega
      have hs2b : S₂ = bhi - (T.2.1 + T.2.2) := by omega
      by_cases hc1 : t < T.1 - alo
      · exact hAcov (by omega) (by omega) t (by omega)
      · by_cases hc2 : t < T.1 - alo + T.2.2
        · have hgen := hTg (t - (T.1 - alo)) (by omega)
          have hia : T.1 + (t - (T.1 - alo)) = alo + t := by omega
          have hja : T.2.1 + (t - (T.1 - alo)) = blo + t := by omega
          rw [hia, hja] at hgen
          exact hgen.2
        · have hcov := hBcov (by omega) (by omega) (t - (T.1 - alo) - T.2.2)
            (by omega)
          have hia : T.1 + T.2.2 + (t - (T.1 - alo) - T.2.2) = alo + t := by
            omega
          have hja : T.2.1 + T.2.2 + (t - (T.1 - alo) - T.2.2) = blo + t := by
            omega
          rw [hia, hja] at hcov
          exact hcov

/-- Merging adjacent blocks preserves the summed size. -/
theorem mergeAdjacent_sum :
    ∀ (L : List Triple) (acc : Triple),
      sumK (mergeAdjacent L acc) = acc.2.2 + sumK L := by
  intro L
  induction L with
  | nil =>
    intro acc
    rw [mergeAdjacent]
    split
    · simp [sumK]
    · next h =>
      simp only [ne_eq, Decidable.not_not] at h
      simp [sumK, h]
  | cons t ts ih =>
    intro acc
    rw [mergeAdjacent]
    split
    · rw [ih, sumK_cons]
      simp only []
      omega
    · rw [sumK_append, ih, sumK_cons]
      split
      · simp only [sumK, List.map_cons, List.map_nil, List.sum_cons,
          List.sum_nil]
        omega
      · next h =>
        simp only [ne_eq, Decidable.not_not] at h
        simp [sumK, h]

/-- The matching-block total is the recursive collection's total. -/
theorem matchesTotal_eq_core (a b : List Char) :
    matchesTotal a b = sumK (gmbGo a b (b2j b)
      (a.length + b.length + 1) 0 a.length 0 b.length) := by
  unfold matchesTotal getMatchingBlocks
  rw [show ∀ L : List Triple, ((L.map (fun t => t.2.2)).sum) = sumK L
    from fun L => rfl]
  rw [sumK_append, mergeAdjacent_sum]
  simp [sumK]

/-- The matching total never exceeds either length. -/
theorem matchesTotal_le (a b : List Char) :
    matchesTotal a b ≤ a.length ∧ matchesTotal a b ≤ b.length := by
  rw [matchesTotal_eq_core]
  have := gmbGo_props a b (b2j b) (fun c j hj => (b2j_mem hj).2.1)
    (a.length + b.length + 1) 0 a.length 0 b.length
    (by omega) (by omega) le_rfl (by omega)
  exact ⟨by omega, by omega⟩

/-- A full matching total forces the sequences to be equal. -/
theorem matchesTotal_full (a b : List Char)
    (ha : matchesTotal a b = a.length) (hb : matchesTotal a b = b.length) :
    a = b := by
  rw [matchesTotal_eq_core] at ha hb
  have hprops := gmbGo_props a b (b2j b) (fun c j hj => (b2j_mem hj).2.1)
    (a.length + b.length + 1) 0 a.length 0 b.length
    (by omega) (by omega) le_rfl (by omega)
  have hcov := hprops.2.2 (by omega) (by omega)
  have hlen : a.length = b.length := by omega
  apply List.ext_get?
  intro n
  by_cases hn : n < a.length
  · have := hcov n (by omega)
    simpa using this
  · rw [List.get?_eq_none.mpr (by omega), List.get?_eq_none.mpr (by omega)]

/-- The similarity score of two distinct sequences is strictly below 1. -/
theorem seqScore_lt_one {x q : List Char} (h : x ≠ q) : seqScore x q < 1 := by
  have hle := matchesTotal_le x q
  unfold seqScore scorePair
  split
  · next h0 =>
    exfalso
    have hx : x = [] := List.eq_nil_of_length_eq_zero (by omega)
    have hq : q = [] := List.eq_nil_of_length_eq_zero (by omega)
    exact h (hx.trans hq.symm)
  · next h0 =>
    have h2M : 2 * matchesTotal x q < x.length + q.length := by
      rcases Nat.lt_or_ge (2 * matchesTotal x q) (x.length + q.length) with
        hlt | hge
      · exact hlt
      · exfalso
        have hax : matchesTotal x q = x.length := by omega
        have haq : matchesTotal x q = q.length := by omega
        exact h (matchesTotal_full x q hax haq)
    have hpos : (0 : ℚ) < ((x.length + q.length : Nat) : ℚ) := by
      exact_mod_cast Nat.pos_of_ne_zero h0
    show ((2 * matchesTotal x q : Nat) : ℚ) /
      ((x.length + q.length : Nat) : ℚ) < 1
    rw [div_lt_one hpos]
    exact_mod_cast h2M

/-- A position holding a non-popular character is non-popular. -/
theorem nonPopB_of {q : List Char} {p : Nat} {c : Char}
    (h : q.get? p = some c) (hp : popularChar q c = false) :
    nonPopB q p = true := by
  unfold nonPopB
  rw [h]
  simp [hp]

/-- A non-popular position holds some non-popular character. -/
theorem nonPopB_char {q : List Char} {p : Nat} (h : nonPopB q p = true) :
    ∃ c, q.get? p = some c ∧ popularChar q c = false := by
  unfold nonPopB at h
  cases hq : q.get? p with
  | none => rw [hq] at h; simp at h
  | some c =>
    rw [hq] at h
    simp at h
    exact ⟨c, rfl, h⟩

/-- `runEnd` at a popular (or absent) position is 0. -/
theorem runEnd_eq_zero {q : List Char} {p : Nat} (h : nonPopB q p = false) :
    runEnd q p = 0 := by
  cases p with
  | zero => rw [runEnd, if_neg (by simp [h])]
  | succ p' => rw [runEnd, if_neg (by simp [h])]

/-- `runEnd` grows by one at a non-popular position. -/
theorem runEnd_succ {q : List Char} {p : Nat} (h : nonPopB q (p + 1) = true) :
    runEnd q (p + 1) = runEnd q p + 1 := by
  rw [runEnd, if_pos h]

/-- `runEnd` at a non-popular position 0. -/
theorem runEnd_zero {q : List Char} (h : nonPopB q 0 = true) :
    runEnd q 0 = 1 := by
  rw [runEnd, if_pos h]

/-- `runEnd` is bounded by the position. -/
theorem runEnd_le (q : List Char) : ∀ p, runEnd q p ≤ p + 1 := by
  intro p
  induction p with
  | zero => rw [runEnd]; split <;> omega
  | succ p' ih => rw [runEnd]; split <;> omega

/-- A block of `s` consecutive non-popular positions ending at `p` forces
`runEnd q p ≥ s`. -/
theorem runEnd_ge (q : List Char) :
    ∀ (p s : Nat), s ≤ p + 1 → (∀ t, t < s → nonPopB q (p - t) = true) →
      s ≤ runEnd q p := by
  intro p
  induction p with
  | zero =>
    intro s hs hnp
    match s with
    | 0 => omega
    | 1 =>
      have := hnp 0 (by omega)
      rw [runEnd_zero (by simpa using this)]
    | s + 2 => omega
  | succ p' ih =>
    intro s hs hnp
    match s with
    | 0 => omega
    | s' + 1 =>
      have h0 := hnp 0 (by omega)
      rw [Nat.sub_zero] at h0
      rw [runEnd_succ h0]
      have hprev : s' ≤ runEnd q p' := by
        apply ih s' (by omega)
        intro t ht
        have := hnp (t + 1) (by omega)
        rwa [show p' + 1 - (t + 1) = p' - t from by omega] at this
      omega

/-- `sameAt` holds on the diagonal of a self-comparison, in range. -/
theorem sameAt_self {q : List Char} {p : Nat} (h : p < q.length) :
    sameAt q q p p = true := by
  unfold sameAt
  have : (q.get? p).isSome := by
    rw [List.get?_eq_getElem?, List.getElem?_eq_getElem h]
    rfl
  obtain ⟨c, hc⟩ := Option.isSome_iff_exists.mp this
  rw [hc]
  simp

/-- Backward extension of a diagonal block of the self-comparison runs to
the start of the sequence. -/
theorem extendBack_self (q : List Char) :
    ∀ (fuel : Nat) (t : Triple), t.1 ≤ fuel → t.1 = t.2.1 →
      t.1 + t.2.2 ≤ q.length →
      extendBack q q 0 0 fuel t = (0, 0, t.1 + t.2.2) := by
  intro fuel
  induction fuel with
  | zero =>
    intro t h1 h2 h3
    obtain ⟨bi, bj, bs⟩ := t
    simp only at h1 h2 h3
    subst h2
    have : bi = 0 := by omega
    subst this
    simp [extendBack]
  | succ f ih =>
    intro t h1 h2 h3
    obtain ⟨bi, bj, bs⟩ := t
    simp only at h1 h2 h3
    subst h2
    rw [extendBack]
    by_cases hz : bi = 0
    · subst hz
      rw [if_neg (by simp)]
      simp
    · rw [if_pos (by
        simp only [Bool.and_eq_true, decide_eq_true_eq]
        exact ⟨⟨by omega, by omega⟩, sameAt_self (by omega)⟩)]
      rw [ih (bi - 1, bi - 1, bs + 1) (show bi - 1 ≤ f by omega) rfl
        (show bi - 1 + (bs + 1) ≤ q.length by omega)]
      have hsum : bi - 1 + (bs + 1) = bi + bs := by omega
      simp only [hsum]

/-- Forward extension of a block starting at the origin of the
self-comparison runs to the end of the sequence. -/
theorem extendFwd_self (q : List Char) :
    ∀ (fuel : Nat) (t : Triple), t.1 = 0 → t.2.1 = 0 →
      q.length - t.2.2 ≤ fuel → t.2.2 ≤ q.length →
      extendFwd q q q.length q.length fuel t = (0, 0, q.length) := by
  intro fuel
  induction fuel with
  | zero =>
    intro t h1 h2 h3 h4
    obtain ⟨bi, bj, bs⟩ := t
    simp only at h1 h2 h3 h4
    subst h1
    subst h2
    have : bs = q.length := by omega
    subst this
    rfl
  | succ f ih =>
    intro t h1 h2 h3 h4
    obtain ⟨bi, bj, bs⟩ := t
    simp only at h1 h2 h3 h4
    subst h1
    subst h2
    rw [extendFwd]
    by_cases hend : bs < q.length
    · rw [if_pos (by
        simp only [Bool.and_eq_true, decide_eq_true_eq]
        exact ⟨⟨by omega, by omega⟩, sameAt_self (by omega)⟩)]
      exact ih (0, 0, bs + 1) rfl rfl (show q.length - (bs + 1) ≤ f by omega)
        (show bs + 1 ≤ q.length by omega)
    · rw [if_neg (by simp only [Bool.and_eq_true, decide_eq_true_eq]; omega)]
      have : bs = q.length := by omega
      subst this
      rfl

/-- `find_longest_match` on an empty row range returns the empty block. -/
theorem flm_empty_rows (a b : List Char) (b2jb : Char → List Nat)
    (alo blo bhi : Nat) :
    findLongestMatch a b b2jb alo alo blo bhi = (alo, blo, 0) := by
  unfold findLongestMatch flmRows
  rw [Nat.sub_self]
  simp only [List.range', List.foldl_nil]
  have hback : ∀ fuel, extendBack a b alo blo fuel (alo, blo, 0) =
      (alo, blo, 0) := by
    intro fuel
    cases fuel with
    | zero => rfl
    | succ f => rw [extendBack, if_neg (by simp)]
  rw [hback]
  have hfwd : extendFwd a b alo bhi (alo - (alo + 0)) (alo, blo, 0) =
      (alo, blo, 0) := by
    cases hf : alo - (alo + 0) with
    | zero => rfl
    | succ f => rw [extendFwd, if_neg (by simp)]
  exact hfwd

/-- The block collection on an empty row range is empty. -/
theorem gmbGo_empty_rows (a b : List Char) (b2jb : Char → List Nat)
    (fuel alo blo bhi : Nat) :
    gmbGo a b b2jb fuel alo alo blo bhi = [] := by
  cases fuel with
  | zero => rfl
  | succ f =>
    rw [gmbGo, flm_empty_rows]
    rw [if_pos rfl]

/-- One inner-loop pass of the self-comparison DP preserves the
diagonal-best invariant: a strict update can only happen on the diagonal,
because an off-diagonal candidate size is capped by a non-popular run
already dominated by the recorded best. -/
theorem flmInner_self (q : List Char) (i : Nat) (ci : Char)
    (hai : q.get? i = some ci) (hpop : popularChar q ci = false)
    (old : Nat → Nat)
    (holdLe : ∀ j, old j ≤ i)
    (holdChain : ∀ j, old j ≠ 0 → selfChain q (i - 1) j (old j))
    (holdDiag : 1 ≤ i → old (i - 1) = runEnd q (i - 1)) :
    ∀ (js : List Nat) (newm : Nat → Nat) (best : Triple),
      js.Pairwise (· < ·) →
      (∀ j ∈ js, j < q.length ∧ q.get? j = some ci) →
      (∀ j, old j ≤ best.2.2) →
      (∀ p, p < i → runEnd q p ≤ best.2.2) →
      best.1 = best.2.1 → best.2.1 + best.2.2 ≤ i + 1 →
      (∀ j, newm j ≤ best.2.2) →
      (∀ j, newm j ≠ 0 → selfChain q i j (newm j)) →
      (i ∈ js ∨ (runEnd q i ≤ best.2.2 ∧ newm i = runEnd q i)) →
      selfRowOut q i (flmInner 0 q.length i js old newm best) := by
  intro js
  induction js with
  | nil =>
    intro newm best _ _ _ hrun hdiag hbnd hnewDom hnewChain hstate
    rcases hstate with h | ⟨h1, h2⟩
    · simp at h
    · exact ⟨hdiag, hbnd, hnewDom, hnewChain, hrun, h1, h2⟩
  | cons j js' ih =>
    intro newm best hpair hmem holdDom hrun hdiag hbnd hnewDom hnewChain hstate
    have hjlen : j < q.length := (hmem j (by simp)).1
    have hbj : q.get? j = some ci := (hmem j (by simp)).2
    rw [flmInner]
    rw [if_neg (by omega)]
    rw [if_neg (by omega)]
    set K : Nat := (if j = 0 then 0 else old (j - 1)) + 1 with hK
    have hK1 : 1 ≤ K := by rw [hK]; omega
    have hKi : K ≤ i + 1 := by
      rw [hK]
      by_cases h0 : j = 0
      · rw [if_pos h0]
        omega
      · rw [if_neg h0]
        have := holdLe (j - 1)
        omega
    have hKj : K ≤ j + 1 := by
      rw [hK]
      by_cases h0 : j = 0
      · rw [if_pos h0]
        omega
      · rw [if_neg h0]
        by_cases hz : old (j - 1) = 0
        · rw [hz]; omega
        · have := (holdChain (j - 1) hz).2.1
          omega
    have hKchain : selfChain q i j K := by
      refine ⟨hKi, hKj, ?_⟩
      intro t ht
      cases t with
      | zero => exact ⟨ci, by simpa using hai, by simpa using hbj, hpop⟩
      | succ t' =>
        have hj0 : j ≠ 0 := by
          intro h0
          rw [hK, if_pos h0] at ht
          omega
        rw [hK, if_neg hj0] at ht
        have hz : old (j - 1) ≠ 0 := by omega
        obtain ⟨_, _, hch⟩ := holdChain (j - 1) hz
        obtain ⟨c, hc1, hc2, hc3⟩ := hch t' (by omega)
        refine ⟨c, ?_, ?_, hc3⟩
        · rwa [show i - (t' + 1) = i - 1 - t' from by omega]
        · rwa [show j - (t' + 1) = j - 1 - t' from by omega]
    have hrunKj : K ≤ runEnd q j := by
      apply runEnd_ge q j K hKj
      intro t ht
      obtain ⟨c, _, hc2, hc3⟩ := hKchain.2.2 t ht
      exact nonPopB_of hc2 hc3
    have hrunKi : K ≤ runEnd q i := by
      apply runEnd_ge q i K hKi
      intro t ht
      obtain ⟨c, hc1, _, hc3⟩ := hKchain.2.2 t ht
      exact nonPopB_of hc1 hc3
    have hKrun : j = i → K = runEnd q i := by
      intro hji
      subst hji
      rcases Nat.eq_zero_or_pos j with h0 | h1
      · subst h0
        rw [hK, if_pos rfl, runEnd_zero (nonPopB_of hai hpop)]
      · have hj0 : j ≠ 0 := by omega
        rw [hK, if_neg hj0, holdDiag h1]
        cases j with
        | zero => omega
        | succ p =>
          rw [runEnd_succ (nonPopB_of hai hpop)]
          simp
    have hpair' : js'.Pairwise (· < ·) := hpair.of_cons
    have hjs' : ∀ x ∈ js', j < x := (List.pairwise_cons.mp hpair).1
    have hmem' : ∀ x ∈ js', x < q.length ∧ q.get? x = some ci :=
      fun x hx => hmem x (by simp [hx])
    have hnewm'eq : ∀ j', (fun x => if x = j then K else newm x) j' =
        if j' = j then K else newm j' := fun j' => rfl
    have hnewm'Chain : ∀ j',
        (if j' = j then K else newm j') ≠ 0 →
          selfChain q i j' (if j' = j then K else newm j') := by
      intro j' hz
      by_cases hjj : j' = j
      · rw [if_pos hjj] at hz ⊢
        rw [hjj]
        exact hKchain
      · rw [if_neg hjj] at hz ⊢
        exact hnewChain j' hz
    by_cases hupd : best.2.2 < K
    · -- strict update: the new candidate must be diagonal
      have hji : j = i := by
        rcases Nat.lt_trichotomy j i with hlt | heq | hgt
        · exfalso
          have := hrun j hlt
          omega
        · exact heq
        · exfalso
          rcases hstate with hin | ⟨h1, _⟩
          · rcases List.mem_cons.mp hin with h | h
            · omega
            · have := hjs' i h
              omega
          · omega
      have hKr : K = runEnd q i := hKrun hji
      have hsel : (if best.2.2 < K then (i + 1 - K, j + 1 - K, K) else best) =
          (i + 1 - K, i + 1 - K, K) := by rw [if_pos hupd, hji]
      have hDom' : ∀ j', old j' ≤ K := by
        intro j'
        have := holdDom j'
        omega
      have hRun' : ∀ p, p < i → runEnd q p ≤ K := by
        intro p hp
        have := hrun p hp
        omega
      have hBnd' : (i + 1 - K) + K ≤ i + 1 := by omega
      have hNDom' : ∀ j', (if j' = j then K else newm j') ≤ K := by
        intro j'
        by_cases hjj : j' = j
        · rw [if_pos hjj]
        · rw [if_neg hjj]
          have := hnewDom j'
          omega
      have hState' : i ∈ js' ∨ (runEnd q i ≤ K ∧
          (if i = j then K else newm i) = runEnd q i) := by
        refine Or.inr ⟨by omega, ?_⟩
        rw [if_pos hji.symm]
        exact hKr
      have hresult := ih (fun j' => if j' = j then K else newm j')
        (i + 1 - K, i + 1 - K, K) hpair' hmem' hDom' hRun' rfl hBnd'
        hNDom' hnewm'Chain hState'
      show selfRowOut q i (flmInner 0 q.length i js' old
        (fun j' => if j' = j then K else newm j')
        (if best.2.2 < K then (i + 1 - K, j + 1 - K, K) else best))
      rw [hsel]
      exact hresult
    · -- no update: the best block is unchanged
      have hbest' : (if best.2.2 < K then (i + 1 - K, j + 1 - K, K) else best) =
          best := by rw [if_neg hupd]
      have hKle : K ≤ best.2.2 := by omega
      have hNDom' : ∀ j', (if j' = j then K else newm j') ≤ best.2.2 := by
        intro j'
        by_cases hjj : j' = j
        · rw [if_pos hjj]
          exact hKle
        · rw [if_neg hjj]
          exact hnewDom j'
      have hState' : i ∈ js' ∨ (runEnd q i ≤ best.2.2 ∧
          (if i = j then K else newm i) = runEnd q i) := by
        by_cases hji : j = i
        · refine Or.inr ⟨?_, ?_⟩
          · rw [← hKrun hji]
            exact hKle
          · rw [if_pos hji.symm]
            exact hKrun hji
        · rcases hstate with hin | ⟨h1, h2⟩
          · rcases List.mem_cons.mp hin with h | h
            · exact absurd h.symm hji
            · exact Or.inl h
          · refine Or.inr ⟨h1, ?_⟩
            rw [if_neg (fun h => hji h.symm)]
            exact h2
      have hresult := ih (fun j' => if j' = j then K else newm j') best
        hpair' hmem' holdDom hrun hdiag hbnd hNDom' hnewm'Chain hState'
      show selfRowOut q i (flmInner 0 q.length i js' old
        (fun j' => if j' = j then K else newm j')
        (if best.2.2 < K then (i + 1 - K, j + 1 - K, K) else best))
      rw [hbest']
      exact hresult

/-- The DP row fold of the self-comparison produces a diagonal best
block: a popular row leaves the state dominated by a zero run, a
non-popular row is handled by `flmInner_self`. -/
theorem flmRows_self (q : List Char) (b2jOfA : Nat → List Nat)
    (hOfA : ∀ i, i < q.length → ∃ ci, q.get? i = some ci ∧
      b2jOfA i = b2j q ci) :
    ∀ (m I : Nat) (st : (Nat → Nat) × Triple),
      I + m = q.length →
      (∀ j, st.1 j ≤ st.2.2.2) →
      (∀ j, st.1 j ≤ I) →
      (∀ j, st.1 j ≠ 0 → selfChain q (I - 1) j (st.1 j)) →
      (1 ≤ I → st.1 (I - 1) = runEnd q (I - 1)) →
      (∀ p, p < I → runEnd q p ≤ st.2.2.2) →
      st.2.1 = st.2.2.1 → st.2.2.1 + st.2.2.2 ≤ I →
      diagTriple q.length
        (((List.range' I m).foldl
          (fun st i => flmInner 0 q.length i (b2jOfA i) st.1 (fun _ => 0) st.2)
          st).2) := by
  intro m
  induction m with
  | zero =>
    intro I st hIm _ _ _ _ _ hdiag hbnd
    simp only [List.range', List.foldl_nil]
    exact ⟨hdiag, by omega⟩
  | succ m' ih =>
    intro I st hIm hDom hLe hChain hDiag hRun hdiag hbnd
    rw [List.range'_succ, List.foldl_cons]
    obtain ⟨ci, hci, hjs⟩ := hOfA I (by omega)
    by_cases hpop : popularChar q ci = true
    · -- popular row: the position list is empty, the fresh map is zero
      have hempty : b2jOfA I = [] := by
        rw [hjs]
        unfold b2j
        rw [if_pos hpop]
      have hstep : flmInner 0 q.length I (b2jOfA I) st.1 (fun _ => 0) st.2 =
          ((fun _ => 0), st.2) := by
        rw [hempty]
        rfl
      rw [hstep]
      have hrI : runEnd q I = 0 := by
        apply runEnd_eq_zero
        unfold nonPopB
        rw [hci]
        simp [hpop]
      apply ih (I + 1) ((fun _ => 0), st.2) (by omega)
      · intro j
        exact Nat.zero_le _
      · intro j
        exact Nat.zero_le _
      · intro j hz
        exact absurd rfl hz
      · intro _
        rw [show I + 1 - 1 = I from by omega, hrI]
      · intro p hp
        by_cases hpI : p < I
        · exact hRun p hpI
        · have : p = I := by omega
          rw [this, hrI]
          exact Nat.zero_le _
      · exact hdiag
      · show st.2.2.1 + st.2.2.2 ≤ I + 1
        omega
    · -- non-popular row: the inner lemma applies
      rw [Bool.not_eq_true] at hpop
      have hrow := flmInner_self q I ci hci hpop st.1 hLe hChain hDiag
        (b2jOfA I) (fun _ => 0) st.2
        (by rw [hjs]; exact b2j_pairwise q ci)
        (by
          intro j hj
          rw [hjs] at hj
          have := b2j_mem hj
          exact ⟨this.1, this.2.1⟩)
        hDom hRun hdiag (by omega)
        (fun j => Nat.zero_le _)
        (fun j hz => absurd rfl hz)
        (Or.inl (by rw [hjs]; exact b2j_self_mem hci hpop))
      obtain ⟨rdiag, rbnd, rDom, rChain, rRun, rRunI, rDiagI⟩ := hrow
      apply ih (I + 1) _ (by omega) rDom
      · intro j
        by_cases hz : (flmInner 0 q.length I (b2jOfA I) st.1
            (fun _ => 0) st.2).1 j = 0
        · rw [hz]
          exact Nat.zero_le _
        · exact le_trans (rChain j hz).1 (by omega)
      · intro j hz
        rw [show I + 1 - 1 = I from by omega]
        exact rChain j hz
      · intro _
        rw [show I + 1 - 1 = I from by omega]
        exact rDiagI
      · intro p hp
        by_cases hpI : p < I
        · exact rRun p hpI
        · have : p = I := by omega
          rw [this]
          exact rRunI
      · exact rdiag
      · exact rbnd

/-- On the self-comparison the best match of the full range is the whole
sequence: the DP returns some diagonal block and the extension loops
(which ignore popularity) stretch it to `(0, 0, n)`. -/
theorem findLongestMatch_self (q : List Char) :
    findLongestMatch q q (b2j q) 0 q.length 0 q.length =
      (0, 0, q.length) := by
  unfold findLongestMatch
  have hOfA : ∀ i, i < q.length → ∃ ci, q.get? i = some ci ∧
      (match q.get? i with
        | some c => b2j q c
        | none => []) = b2j q ci := by
    intro i hi
    have hisome : (q.get? i).isSome := by
      rw [List.get?_eq_getElem?, List.getElem?_eq_getElem hi]
      rfl
    obtain ⟨ci, hci⟩ := Option.isSome_iff_exists.mp hisome
    refine ⟨ci, hci, ?_⟩
    rw [hci]
  set B : Triple := flmRows
    (fun i => match q.get? i with | some c => b2j q c | none => [])
    0 q.length 0 q.length with hB
  have hrows : diagTriple q.length B := by
    rw [hB]
    unfold flmRows
    rw [Nat.sub_zero]
    exact flmRows_self q _ hOfA q.length 0 ((fun _ => 0), (0, 0, 0))
      (by omega) (fun j => le_rfl) (fun j => le_rfl)
      (fun j hz => absurd rfl hz) (fun h => absurd h (by omega))
      (fun p hp => absurd hp (Nat.not_lt_zero p)) rfl le_rfl
  obtain ⟨hd, hb⟩ := hrows
  have hback : extendBack q q 0 0 B.1 B = (0, 0, B.1 + B.2.2) :=
    extendBack_self q B.1 B le_rfl hd (by omega)
  show extendFwd q q q.length q.length
    (q.length - ((extendBack q q 0 0 B.1 B).1 +
      (extendBack q q 0 0 B.1 B).2.2)) (extendBack q q 0 0 B.1 B) =
    (0, 0, q.length)
  rw [hback]
  exact extendFwd_self q _ (0, 0, B.1 + B.2.2) rfl rfl
    (by simp only; omega) (by simp only; omega)

/-- The recursive block collection of the self-comparison is the single
full-length block (or nothing for the empty sequence). -/
theorem gmbGo_self (q : List Char) (fuel : Nat) :
    gmbGo q q (b2j q) (fuel + 1) 0 q.length 0 q.length =
      if q.length = 0 then [] else [(0, 0, q.length)] := by
  rw [gmbGo, findLongestMatch_self]
  by_cases h0 : q.length = 0
  · rw [if_pos (show ((0 : Nat), (0 : Nat), q.length).2.2 = 0 from h0),
      if_pos h0]
  · rw [if_neg (show ¬((0 : Nat), (0 : Nat), q.length).2.2 = 0 from h0),
      if_neg h0]
    show gmbGo q q (b2j q) fuel 0 0 0 0 ++ (0, 0, q.length) ::
      gmbGo q q (b2j q) fuel (0 + q.length) q.length (0 + q.length)
        q.length = [(0, 0, q.length)]
    rw [gmbGo_empty_rows]
    rw [show 0 + q.length = q.length from by omega]
    rw [gmbGo_empty_rows]
    rfl

/-- The matching total of the self-comparison is the full length. -/
theorem matchesTotal_self (q : List Char) : matchesTotal q q = q.length := by
  rw [matchesTotal_eq_core]
  rw [show q.length + q.length + 1 = (q.length + q.length) + 1 from rfl]
  rw [gmbGo_self]
  by_cases h0 : q.length = 0
  · rw [if_pos h0, h0]
    rfl
  · rw [if_neg h0]
    simp [sumK]

/-- The self-similarity score is exactly 1. -/
theorem seqScore_self (q : List Char) : seqScore q q = 1 := by
  unfold seqScore scorePair
  split
  · norm_num
  · next h0 =>
    rw [matchesTotal_self]
    have hpos : (0 : ℚ) < ((q.length + q.length : Nat) : ℚ) := by
      exact_mod_cast Nat.pos_of_ne_zero h0
    rw [div_eq_one_iff_eq hpos.ne']
    push_cast
    ring

/-- The exact ratio denominator is positive. -/
theorem scorePair_den_pos (a b : List Char) : 0 < (scorePair a b).2 := by
  unfold scorePair
  split
  · exact Nat.one_pos
  · next h0 =>
    show 0 < a.length + b.length
    omega

/-- The rational score comparison agrees with the executable
cross-multiplied comparison. -/
theorem seqScore_lt_iff (a b c d : List Char) :
    seqScore a b < seqScore c d ↔
      scoreLt (scorePair a b) (scorePair c d) = true := by
  unfold seqScore scoreLt
  have h1 : (0 : ℚ) < ((scorePair a b).2 : ℚ) := by
    exact_mod_cast scorePair_den_pos a b
  have h2 : (0 : ℚ) < ((scorePair c d).2 : ℚ) := by
    exact_mod_cast scorePair_den_pos c d
  rw [div_lt_div_iff h1 h2, decide_eq_true_eq]
  exact ⟨fun h => by exact_mod_cast h, fun h => by exact_mod_cast h⟩

/-- The rational cutoff test agrees with the executable
cross-multiplied test used in the filter. -/
theorem cutoff_iff (x w : List Char) :
    (3 : ℚ)/10 ≤ seqScore x w ↔
      3 * (scorePair x w).2 ≤ 10 * (scorePair x w).1 := by
  unfold seqScore
  have h1 : (0 : ℚ) < ((scorePair x w).2 : ℚ) := by
    exact_mod_cast scorePair_den_pos x w
  rw [div_le_div_iff (by norm_num) h1]
  constructor
  · intro h
    have hn : 3 * (scorePair x w).2 ≤ (scorePair x w).1 * 10 := by
      exact_mod_cast h
    omega
  · intro h
    have hn : 3 * (scorePair x w).2 ≤ (scorePair x w).1 * 10 := by omega
    exact_mod_cast hn

/-- `nlargest(1, ...)` selection: if every list element is the target or
scores strictly below it, and the accumulator is the target, empty, or
scores strictly below it, and the target occurs, the fold returns the
target. -/
theorem pickBest_max (score : String → Nat × Nat) (k : String) :
    ∀ (l : List String) (acc : Option String),
      (∀ x ∈ l, x = k ∨ scoreLt (score x) (score k) = true) →
      (acc = some k ∨ acc = none ∨
        ∃ y, acc = some y ∧ scoreLt (score y) (score k) = true) →
      (k ∈ l ∨ acc = some k) →
      pickBest score acc l = some k := by
  intro l
  induction l with
  | nil =>
    intro acc _ _ hk
    rcases hk with h | h
    · simp at h
    · rw [h]
      rfl
  | cons x xs ih =>
    intro acc hall hacc hk
    have hx := hall x (by simp)
    have htail : ∀ x' ∈ xs, x' = k ∨ scoreLt (score x') (score k) = true :=
      fun x' hx' => hall x' (by simp [hx'])
    rcases hacc with hacc | hacc | ⟨y, hacc, hy⟩
    · subst hacc
      rw [pickBest]
      rcases hx with hxk | hxlt
      · subst hxk
        have hc1 : scoreLt (score x) (score x) = false := by
          simp [scoreLt]
        have hc2 : decide (x < x) = false := by simp
        rw [if_neg (by rw [hc1, hc2]; simp)]
        exact ih (some x) htail (Or.inl rfl) (Or.inr rfl)
      · have hxlt' : (score x).1 * (score k).2 < (score k).1 * (score x).2 := by
          simpa [scoreLt] using hxlt
        have hc1 : scoreLt (score k) (score x) = false := by
          simp only [scoreLt, decide_eq_false_iff_not]
          exact Nat.lt_asymm hxlt'
        have hc2 : scoreEq (score k) (score x) = false := by
          simp only [scoreEq, decide_eq_false_iff_not]
          exact (Nat.ne_of_lt hxlt').symm
        rw [if_neg (by rw [hc1, hc2]; simp)]
        exact ih (some k) htail (Or.inl rfl) (Or.inr rfl)
    · subst hacc
      rw [pickBest]
      rcases hx with hxk | hxlt
      · subst hxk
        exact ih (some x) htail (Or.inl rfl) (Or.inr rfl)
      · have hxk' : x ≠ k := by
          intro he
          rw [he] at hxlt
          simp [scoreLt] at hxlt
        have hkxs : k ∈ xs := by
          rcases hk with hin | hin
          · rcases List.mem_cons.mp hin with h | h
            · exact absurd h.symm hxk'
            · exact h
          · exact absurd hin (by simp)
        exact ih (some x) htail (Or.inr (Or.inr ⟨x, rfl, hxlt⟩))
          (Or.inl hkxs)
    · subst hacc
      rw [pickBest]
      have hyk : y ≠ k := by
        intro he
        rw [he] at hy
        simp [scoreLt] at hy
      have hkin : k ∈ x :: xs := by
        rcases hk with hin | hin
        · exact hin
        · exact absurd (Option.some.inj hin) hyk
      rcases hx with hxk | hxlt
      · subst hxk
        rw [if_pos (by rw [hy]; rfl)]
        exact ih (some x) htail (Or.inl rfl) (Or.inr rfl)
      · have hxk' : x ≠ k := by
          intro he
          rw [he] at hxlt
          simp [scoreLt] at hxlt
        have hkxs : k ∈ xs := by
          rcases List.mem_cons.mp hkin with h | h
          · exact absurd h.symm hxk'
          · exact h
        by_cases hcond : (scoreLt (score y) (score x) ||
            (scoreEq (score y) (score x) && decide (y < x))) = true
        · rw [if_pos hcond]
          exact ih (some x) htail (Or.inr (Or.inr ⟨x, rfl, hxlt⟩))
            (Or.inl hkxs)
        · rw [if_neg hcond]
          exact ih (some y) htail (Or.inr (Or.inr ⟨y, rfl, hy⟩))
            (Or.inl hkxs)

/-- `get_close_matches` returns a candidate that reaches the cutoff and
strictly dominates every other candidate. -/
theorem getCloseMatches1_dominant (word : String) (keys : List String)
    (k : String) (hk : k ∈ keys)
    (hcut : (3 : ℚ)/10 ≤ seqScore k.data word.data)
    (hdom : ∀ k', k' ∈ keys → k' ≠ k →
      seqScore k'.data word.data < seqScore k.data word.data) :
    getCloseMatches1 word keys = some k := by
  unfold getCloseMatches1
  apply pickBest_max
  · intro x hxf
    have hxk := List.mem_of_mem_filter hxf
    by_cases hxe : x = k
    · exact Or.inl hxe
    · refine Or.inr ?_
      rw [← seqScore_lt_iff]
      exact hdom x hxk hxe
  · exact Or.inr (Or.inl rfl)
  · refine Or.inl (List.mem_filter.mpr ⟨hk, ?_⟩)
    simpa using (cutoff_iff k.data word.data).mp hcut

/-- C6: `get_close_matches(nome_norm, keys, n=1, cutoff=0.3)` returns the
single highest-similarity candidate when its Ratcliff/Obershelp ratio is
at least 0.3 (here: when it strictly dominates every other candidate and
reaches the cutoff), returns `none` when every candidate scores below
0.3, and on an exact match — the query equal to some key — returns that
key, whose self-ratio is 1. -/
theorem c6_best_match :
    (∀ (word : String) (keys : List String) (k : String),
      k ∈ keys → (3 : ℚ)/10 ≤ seqScore k.data word.data →
      (∀ k', k' ∈ keys → k' ≠ k →
        seqScore k'.data word.data < seqScore k.data word.data) →
      getCloseMatches1 word keys = some k) ∧
    (∀ (word : String) (keys : List String),
      (∀ k', k' ∈ keys → seqScore k'.data word.data < (3 : ℚ)/10) →
      getCloseMatches1 word keys = none) ∧
    (∀ (word : String) (keys : List String),
      word ∈ keys →
        seqScore word.data word.data = 1 ∧
        getCloseMatches1 word keys = some word) := by
  refine ⟨?_, ?_, ?_⟩
  · intro word keys k hk hcut hdom
    exact getCloseMatches1_dominant word keys k hk hcut hdom
  · intro word keys hall
    unfold getCloseMatches1
    have hfil : keys.filter (fun x =>
        3 * (scorePair x.data word.data).2 ≤
          10 * (scorePair x.data word.data).1) = [] := by
      rw [List.filter_eq_nil]
      intro x hx
      have hlt := hall x hx
      simp only [decide_eq_true_eq]
      intro hge
      have := (cutoff_iff x.data word.data).mpr hge
      exact absurd hlt (not_lt.mpr this)
    show pickBest (fun x : String => scorePair x.data word.data) none
      (keys.filter (fun x =>
        3 * (scorePair x.data word.data).2 ≤
          10 * (scorePair x.data word.data).1)) = none
    rw [hfil]
    rfl
  · intro word keys hw
    refine ⟨seqScore_self word.data, ?_⟩
    apply getCloseMatches1_dominant word keys word hw
    · rw [seqScore_self]
      norm_num
    · intro k' _ hne
      rw [seqScore_self]
      apply seqScore_lt_one
      intro hdata
      apply hne
      cases k'
      cases word
      exact congrArg String.mk hdata

/-- Witness for C6 at concrete inputs: an exact match among keys returns
the key, and an empty candidate list (so every candidate trivially
scores below the cutoff) returns none. -/
theorem c6_best_match_witness :
    getCloseMatches1 "abc" ["abc", "xy"] = some "abc" ∧
    getCloseMatches1 "abc" ([] : List String) = none := by
  constructor
  · exact (c6_best_match.2.2 "abc" ["abc", "xy"] (by simp)).2
  · exact c6_best_match.2.1 "abc" []
      (fun k' hk' => absurd hk' (List.not_mem_nil k'))

end AtasApp
